import Mathlib

/-!
Shallow embedding of the email-reply-parser library
(src/email_reply_parser/__init__.py) and verification of the frozen claims.

The whole library is a single pure text transformation, so the embedding
works on `List Char`.  Python strings are modelled as `List Char`; the regular
expressions of the source are modelled by executable Lean functions that are
specialised to the concrete patterns of the source.  The following standard
idealisations are made (documented where used):
  * Python's Unicode-aware character classes (the regex classes for word and
    space characters, and str.strip) are modelled on their ASCII cores:
    word characters are alphanumerics and the underscore, whitespace
    characters are space, tab, newline, carriage return, vertical tab and
    form feed.
  * A scanned line never contains a newline character (lines come from
    splitting on newline), so the regex dot, which in Python matches
    anything except a newline unless DOTALL is set, is modelled as matching
    any character in the per-line matchers, and as matching any character in
    the multi-line quote-header patterns (those are compiled with DOTALL in
    the source).
-/

namespace ERP

/-- ASCII core of the Python regex word class used in the source patterns. -/
def isWordChar (c : Char) : Bool :=
  (('a' ≤ c && c ≤ 'z') || ('A' ≤ c && c ≤ 'Z') || ('0' ≤ c && c ≤ '9') || c = '_')

/-- ASCII core of the Python regex space class and of the characters removed
by str.strip. -/
def isSpaceChar (c : Char) : Bool :=
  (c = ' ' || c = '\t' || c = '\n' || c = '\r' || c = '\x0b' || c = '\x0c')

/-- Python str.strip: remove leading and trailing whitespace. -/
def pStrip (s : List Char) : List Char :=
  ((s.dropWhile isSpaceChar).reverse.dropWhile isSpaceChar).reverse

/-- Python text.split with separator a single newline: always returns at
least one (possibly empty) piece. -/
def splitLines : List Char → List (List Char)
  | [] => [[]]
  | c :: r =>
    if c = '\n' then [] :: splitLines r
    else
      match splitLines r with
      | l :: ls => (c :: l) :: ls
      | [] => [[c]]

/-- Python newline.join. -/
def joinLines : List (List Char) → List Char
  | [] => []
  | [l] => l
  | l :: ls => l ++ '\n' :: joinLines ls

/-- Python text.replace of a carriage-return--newline pair by a newline
(left to right, non-overlapping), used by EmailMessage.init. -/
def replaceCrlf : List Char → List Char
  | [] => []
  | [c] => [c]
  | c :: d :: r =>
    if c = '\r' ∧ d = '\n' then '\n' :: replaceCrlf r
    else c :: replaceCrlf (d :: r)

/-! ### Per-line pattern matchers (EmailMessage pattern table) -/

/-- re.match of SIG_REGEX, the pattern
(double dash | double underscore | dash word-char) or
(Sent from my, then one to three words): an anchored prefix match on the
line.  Only the existence of a match is ever used by the source. -/
def matchSig (line : List Char) : Bool :=
  match line with
  | '-' :: '-' :: _ => true
  | '_' :: '_' :: _ => true
  | '-' :: c :: _ => isWordChar c
  | _ =>
    (( "Sent from my ".data).isPrefixOf line) &&
      (match line.drop 13 with
       | c :: _ => isWordChar c
       | [] => false)

/-- re.match of QUOTED_REGEX, one or more greater-than signs at line start. -/
def matchQuoted (line : List Char) : Bool :=
  match line with
  | '>' :: _ => true
  | _ => false

/-- Suffix of hay strictly after the first occurrence of needle, if any. -/
def afterFirstInfix (needle : List Char) : List Char → Option (List Char)
  | [] => if needle = [] then some [] else none
  | c :: r =>
    if needle.isPrefixOf (c :: r) then some ((c :: r).drop needle.length)
    else afterFirstInfix needle r

/-- Does needle occur inside hay. -/
def hasInfix (needle hay : List Char) : Bool :=
  (afterFirstInfix needle hay).isSome

/-- EmailMessage.is_quote_header: the QUOTE_HDR_REGEXS are anchored matches
against the reversed line; English, then German, then French.  The French
pattern spells the accented letter as the two bytes of its UTF-8 encoding,
reversed, which in a Unicode string are the code points U+00A9 and U+00C3. -/
def is_quote_header (line : List Char) : Bool :=
  let r := line.reverse
  (( ":etorw".data).isPrefixOf r && hasInfix ( "nO".data) (r.drop 6)) ||
  (match r with
   | ':' :: rest =>
     (match afterFirstInfix ( "beirhcs".data) rest with
      | some tail => hasInfix ( "mA".data) tail
      | none => false)
   | _ => false) ||
  (match r with
   | ':' :: rest =>
     let rest2 := rest.dropWhile isSpaceChar
     (( "tirc".data ++ ['©', 'Ã']).isPrefixOf rest2 &&
       hasInfix ( "eL".data) (rest2.drop 6))
   | _ => false)

/-! ### Forward-header matchers (FORWARD_REGEXS)

Each stem of FORWARD_MESSAGES yields two anchored whole-line patterns:
three-or-more dashes, an optional space, the stem, anything, an optional
space, three-or-more dashes; or exactly the stem followed by a colon. -/

/-- Strip the literal stem of the Apple Mail forward phrase. -/
def stripStemApple (s : List Char) : Option (List Char) :=
  if ( "Begin forwarded message".data).isPrefixOf s then
    some (s.drop 23)
  else none

/-- Strip the Gmail forward phrase, whose initial letter of the last word is
a lower or upper case m (a character class in the source pattern). -/
def stripStemGmail (s : List Char) : Option (List Char) :=
  if ( "Forwarded ".data).isPrefixOf s then
    match s.drop 10 with
    | c :: t =>
      if (c = 'm' || c = 'M') && ( "essage".data).isPrefixOf t then
        some (t.drop 6)
      else none
    | [] => none
  else none

/-- Strip the Outlook forward phrase, same character class on the m. -/
def stripStemOutlook (s : List Char) : Option (List Char) :=
  if ( "Original ".data).isPrefixOf s then
    match s.drop 9 with
    | c :: t =>
      if (c = 'm' || c = 'M') && ( "essage".data).isPrefixOf t then
        some (t.drop 6)
      else none
    | [] => none
  else none

/-- The dash-surrounded forward pattern for one stem: an anchored match of
three-or-more dashes, an optional space, the stem, anything, then the line
must end in three-or-more dashes.  (The trailing optional space of the
source pattern is subsumed by the dot-star before it.) -/
def matchDashForward (strip : List Char → Option (List Char)) (line : List Char) : Bool :=
  let d := line.takeWhile (fun c => c = '-')
  if d.length < 3 then false
  else
    let rest := line.drop d.length
    let check : List Char → Bool := fun r =>
      match strip r with
      | some tail => ( "---".data).isSuffixOf tail
      | none => false
    match rest with
    | ' ' :: r2 => check r2 || check rest
    | _ => check rest

/-- The colon forward pattern for one stem: exactly the stem then a colon. -/
def matchColonForward (strip : List Char → Option (List Char)) (line : List Char) : Bool :=
  match strip line with
  | some [':'] => true
  | _ => false

/-- EmailMessage.is_forward_header: try the six FORWARD_REGEXS in order
(the three dash forms, then the three colon forms). -/
def is_forward_header (line : List Char) : Bool :=
  matchDashForward stripStemApple line ||
  matchDashForward stripStemGmail line ||
  matchDashForward stripStemOutlook line ||
  matchColonForward stripStemApple line ||
  matchColonForward stripStemGmail line ||
  matchColonForward stripStemOutlook line

/-! ### A small backtracking regex engine

The three MULTI_QUOTE_HDR_REGEXS are built from literals, single-character
classes, a greedy optional prefix, greedy plus and star over a character
class, and a lazy dot-star.  The engine below implements exactly these
constructs with Python's backtracking preference order (continuation
passing; alternatives of a construct are tried in preference order and the
first complete match wins).  Star and plus bodies are single-character
classes, so candidate splits can be enumerated directly. -/

inductive RE where
  | lit : List Char → RE
  | cls : (Char → Bool) → RE
  | seq : RE → RE → RE
  | opt : RE → RE
  | starG : (Char → Bool) → RE
  | starL : (Char → Bool) → RE
  | plusG : (Char → Bool) → RE

/-- Try the continuation on each candidate remainder in order. -/
def firstSome (k : List Char → Option (List Char)) : List (List Char) → Option (List Char)
  | [] => none
  | x :: r =>
    match k x with
    | some v => some v
    | none => firstSome k r

/-- Remainders after a greedy class-star: longest first, down to zero. -/
def greedyDrops (p : Char → Bool) (s : List Char) : List (List Char) :=
  ((List.range ((s.takeWhile p).length + 1)).reverse).map (fun n => s.drop n)

/-- Remainders after a lazy class-star: shortest first. -/
def lazyDrops (p : Char → Bool) (s : List Char) : List (List Char) :=
  (List.range ((s.takeWhile p).length + 1)).map (fun n => s.drop n)

/-- Remainders after a greedy class-plus: longest first, at least one. -/
def plusDrops (p : Char → Bool) (s : List Char) : List (List Char) :=
  ((List.range ((s.takeWhile p).length)).reverse).map (fun n => s.drop (n + 1))

/-- Backtracking matcher: k receives the remainder after the piece matched
by re; the result is the remainder accepted by the whole continuation. -/
def matchRE : RE → List Char → (List Char → Option (List Char)) → Option (List Char)
  | .lit l, s, k => if l.isPrefixOf s then k (s.drop l.length) else none
  | .cls p, s, k =>
    match s with
    | c :: r => if p c then k r else none
    | [] => none
  | .seq a b, s, k => matchRE a s (fun r => matchRE b r k)
  | .opt a, s, k =>
    match matchRE a s k with
    | some v => some v
    | none => k s
  | .starG p, s, k => firstSome k (greedyDrops p s)
  | .starL p, s, k => firstSome k (lazyDrops p s)
  | .plusG p, s, k => firstSome k (plusDrops p s)

/-- Leftmost match: (text before the match, matched span, text after).
Positions are tried left to right; at each position the backtracking
preference order decides the extent, as in Python re.search. -/
def searchAux (re : RE) (preRev : List Char) : List Char → Option (List Char × List Char × List Char)
  | [] =>
    match matchRE re [] some with
    | some _ => some (preRev.reverse, [], [])
    | none => none
  | c :: t =>
    match matchRE re (c :: t) some with
    | some rem => some (preRev.reverse, (c :: t).take ((c :: t).length - rem.length), rem)
    | none => searchAux re (c :: preRev) t

/-- re.search. -/
def searchRE (re : RE) (s : List Char) : Option (List Char × List Char × List Char) :=
  searchAux re [] s

/-- The three MULTI_QUOTE_HDR_REGEXS, compiled with DOTALL, in source
order: an optional prefix of dashes and whitespace, then the
language-specific quote introduction with a lazy dot-star gap.  The outer
capturing group of every pattern spans the whole pattern.  The French
pattern spells the accented letter as the code points U+00C3 and U+00A9,
the bytes of its UTF-8 encoding read as characters. -/
def optDashes : RE := .opt (.seq (.plusG (fun c => c = '-')) (.starG isSpaceChar))

def multiQuoteHdrEn : RE :=
  .seq optDashes (.seq (.lit ( "On".data))
    (.seq (.cls isSpaceChar) (.seq (.starL (fun _ => true)) (.lit ( "wrote:".data)))))

def multiQuoteHdrDe : RE :=
  .seq optDashes (.seq (.lit ( "Am".data))
    (.seq (.cls isSpaceChar) (.seq (.starL (fun _ => true))
      (.seq (.lit ( "schrieb".data)) (.seq (.starG (fun _ => true)) (.lit [':']))))))

def multiQuoteHdrFr : RE :=
  .seq optDashes (.seq (.lit ( "Le".data))
    (.seq (.cls isSpaceChar) (.seq (.starL (fun _ => true))
      (.seq (.lit (['Ã', '©'] ++ "crit".data)) (.seq (.starG isSpaceChar) (.lit [':']))))))

def MULTI_QUOTE_HDR_REGEXS : List RE := [multiQuoteHdrEn, multiQuoteHdrDe, multiQuoteHdrFr]

/-- EmailMessage.has_quote_header via the match-any helper: search with the
patterns in order, return the first match together with its pattern. -/
def has_quote_header (text : List Char) : Option (RE × List Char × List Char × List Char) :=
  match searchRE multiQuoteHdrEn text with
  | some m => some (multiQuoteHdrEn, m)
  | none =>
    match searchRE multiQuoteHdrDe text with
    | some m => some (multiQuoteHdrDe, m)
    | none =>
      match searchRE multiQuoteHdrFr text with
      | some m => some (multiQuoteHdrFr, m)
      | none => none

/-! ### The re.sub replacement template

EmailMessage.read passes the first capturing group of the found match, with
newlines removed, to re.sub as the replacement string.  CPython processes
that string as a template (re._parser.parse_template): backslash escapes in
it are interpreted, and ill-formed escapes raise re.error.  The model below
follows parse_template: a trailing backslash, a g escape without an angle
bracket or with a bad group name, an unknown escape of an ASCII letter, and
a group reference beyond the pattern's two groups are errors; digit escapes
are group references (with the octal-escape cases of parse_template);
other escaped characters are kept verbatim. -/

inductive TmplPiece where
  | text : List Char → TmplPiece
  | group : Nat → TmplPiece

def isOctDigit (c : Char) : Bool := ('0' ≤ c && c ≤ '7')

def octVal (c : Char) : Nat := c.toNat - '0'.toNat

/-- Known letter escapes of a replacement template (the ESCAPES table). -/
def tmplEscape (c : Char) : Option Char :=
  if c = 'a' then some '\x07'
  else if c = 'b' then some '\x08'
  else if c = 'f' then some '\x0c'
  else if c = 'n' then some '\n'
  else if c = 'r' then some '\r'
  else if c = 't' then some '\t'
  else if c = 'v' then some '\x0b'
  else none

def isAsciiLetter (c : Char) : Bool := (('a' ≤ c && c ≤ 'z') || ('A' ≤ c && c ≤ 'Z'))

/-- Decimal value of a digit list. -/
def decimalVal (ds : List Char) : Nat :=
  ds.foldl (fun n c => 10 * n + (c.toNat - '0'.toNat)) 0

/-- Split a list at the first closing angle bracket (the Tokenizer getuntil
of re._parser): the part before it and the part after it. -/
def splitOnGt : List Char → Option (List Char × List Char)
  | [] => none
  | c :: r =>
    if c = '>' then some ([], r)
    else (splitOnGt r).map (fun p => (c :: p.1, p.2))

/-- Parse a replacement template against a pattern with ngroups groups.
Mirrors re._parser.parse_template on the error cases and on the several
digit-escape readings.  The fuel argument is one unit per character of the
remaining input; every parsing step consumes at least one character, so a
fuel equal to the input length always suffices and the fuel-exhausted arm
(kept to make the recursion structural) is unreachable. -/
def parseTemplateF (ngroups : Nat) : Nat → List Char → Except String (List TmplPiece)
  | _, [] => .ok []
  | 0, _ :: _ => .error "template fuel exhausted"
  | Nat.succ _, ['\\'] => .error "bad escape (end of pattern)"
  | Nat.succ fuel, '\\' :: 'g' :: '<' :: r3 =>
    (match splitOnGt r3 with
     | some (name, r5) =>
       if name = [] then .error "missing group name"
       else if name.all (fun c => c.isDigit) then
         let idx := decimalVal name
         if idx > ngroups then .error "invalid group reference"
         else (parseTemplateF ngroups fuel r5).map (fun t => .group idx :: t)
       else .error "unknown group name"
     | none => .error "missing >, unterminated name")
  | Nat.succ _, '\\' :: 'g' :: _ => .error "missing <"
  | Nat.succ fuel, '\\' :: '0' :: d1 :: d2 :: rest2 =>
    if isOctDigit d1 then
      if isOctDigit d2 then
        (parseTemplateF ngroups fuel rest2).map
          (fun t => .text [Char.ofNat (8 * octVal d1 + octVal d2)] :: t)
      else
        (parseTemplateF ngroups fuel (d2 :: rest2)).map
          (fun t => .text [Char.ofNat (octVal d1)] :: t)
    else
      (parseTemplateF ngroups fuel (d1 :: d2 :: rest2)).map (fun t => .text ['\x00'] :: t)
  | Nat.succ fuel, ['\\', '0', d1] =>
    if isOctDigit d1 then
      (parseTemplateF ngroups fuel []).map (fun t => .text [Char.ofNat (octVal d1)] :: t)
    else
      (parseTemplateF ngroups fuel [d1]).map (fun t => .text ['\x00'] :: t)
  | Nat.succ fuel, ['\\', '0'] => (parseTemplateF ngroups fuel []).map (fun t => .text ['\x00'] :: t)
  | Nat.succ fuel, '\\' :: c :: d :: e :: r4 =>
    if c.isDigit then
      if d.isDigit then
        if isOctDigit c && isOctDigit d && isOctDigit e then
          let v := 64 * octVal c + 8 * octVal d + octVal e
          if v > 255 then .error "octal escape value outside of range"
          else (parseTemplateF ngroups fuel r4).map (fun t => .text [Char.ofNat v] :: t)
        else
          let idx := 10 * octVal c + octVal d
          if idx > ngroups then .error "invalid group reference"
          else (parseTemplateF ngroups fuel (e :: r4)).map (fun t => .group idx :: t)
      else
        let idx := octVal c
        if idx > ngroups then .error "invalid group reference"
        else (parseTemplateF ngroups fuel (d :: e :: r4)).map (fun t => .group idx :: t)
    else
      match tmplEscape c with
      | some ch => (parseTemplateF ngroups fuel (d :: e :: r4)).map (fun t => .text [ch] :: t)
      | none =>
        if isAsciiLetter c then .error "bad escape"
        else (parseTemplateF ngroups fuel (d :: e :: r4)).map (fun t => .text ['\\', c] :: t)
  | Nat.succ fuel, ['\\', c, d] =>
    if c.isDigit then
      if d.isDigit then
        let idx := 10 * octVal c + octVal d
        if idx > ngroups then .error "invalid group reference"
        else (parseTemplateF ngroups fuel []).map (fun t => .group idx :: t)
      else
        let idx := octVal c
        if idx > ngroups then .error "invalid group reference"
        else (parseTemplateF ngroups fuel [d]).map (fun t => .group idx :: t)
    else
      match tmplEscape c with
      | some ch => (parseTemplateF ngroups fuel [d]).map (fun t => .text [ch] :: t)
      | none =>
        if isAsciiLetter c then .error "bad escape"
        else (parseTemplateF ngroups fuel [d]).map (fun t => .text ['\\', c] :: t)
  | Nat.succ fuel, ['\\', c] =>
    if c.isDigit then
      let idx := octVal c
      if idx > ngroups then .error "invalid group reference"
      else (parseTemplateF ngroups fuel []).map (fun t => .group idx :: t)
    else
      match tmplEscape c with
      | some ch => (parseTemplateF ngroups fuel []).map (fun t => .text [ch] :: t)
      | none =>
        if isAsciiLetter c then .error "bad escape"
        else (parseTemplateF ngroups fuel []).map (fun t => .text ['\\', c] :: t)
  | Nat.succ fuel, c :: rest => (parseTemplateF ngroups fuel rest).map (fun t => .text [c] :: t)

/-- re._parser.parse_template. -/
def parseTemplate (ngroups : Nat) (s : List Char) : Except String (List TmplPiece) :=
  parseTemplateF ngroups s.length s

/-- Group 2 of a match of any MULTI_QUOTE_HDR_REGEXS pattern: the optional
dash-and-whitespace prefix.  It participates exactly when the match starts
with a dash, and then consists of the maximal dash run followed by the
maximal whitespace run (the following literal letter admits no other
backtracking assignment). -/
def group2OfMatch (m : List Char) : Option (List Char) :=
  match m with
  | '-' :: _ =>
    let d := m.takeWhile (fun c => c = '-')
    some (d ++ (m.drop d.length).takeWhile isSpaceChar)
  | _ => none

/-- re._parser.expand_template for a match m of one of the quote-header
patterns: group 0 is the whole match, group 1 the whole match (the outer
group spans the pattern), group 2 the optional prefix, empty when it did
not participate. -/
def expandTemplate (tmpl : List TmplPiece) (m : List Char) : List Char :=
  tmpl.foldr
    (fun p acc =>
      match p with
      | .text s => s ++ acc
      | .group 0 => m ++ acc
      | .group 1 => m ++ acc
      | .group _ => ((group2OfMatch m).getD []) ++ acc)
    []

/-- re.sub with no count: replace every leftmost non-overlapping match,
rescanning from the text after each match.  The patterns used here cannot
match the empty span (each contains a mandatory literal), so the fuel of
one unit per character always suffices and the empty-match guard is never
taken. -/
def subAllAux (re : RE) (tmpl : List TmplPiece) : Nat → List Char → List Char
  | 0, s => s
  | Nat.succ fuel, s =>
    match searchRE re s with
    | none => s
    | some (pre, m, post) =>
      if m.isEmpty then s
      else pre ++ expandTemplate tmpl m ++ subAllAux re tmpl fuel post

def subAll (re : RE) (tmpl : List TmplPiece) (s : List Char) : List Char :=
  subAllAux re tmpl s.length s

/-- The quote-header normalization step of EmailMessage.read: search for a
multi-line quote header; if found, substitute every occurrence of the
pattern by the first match's first group with newlines removed, that text
being interpreted as a replacement template (which can fail, as in the
source, where re.sub raises re.error). -/
def collapseQuoteHdr (text : List Char) : Except String (List Char) :=
  match has_quote_header text with
  | none => .ok text
  | some (re, _, m, _) =>
    match parseTemplate 2 (m.filter (fun c => c ≠ '\n')) with
    | .error e => .error e
    | .ok tmpl => .ok (subAll re tmpl text)

/-! ### Fragments and the backward line scan -/

/-- A finished fragment (class Fragment after finish): the accumulated lines
are frozen into a single joined content string. -/
structure Fragment where
  signature : Bool
  hidden : Bool
  quoted : Bool
  forwarded : Bool
  content : List Char
deriving DecidableEq

/-- An open fragment (class Fragment before finish).  Python appends lines
and reverses them at finish; here the lines are kept in document order with
the most recently scanned line first, so the append of the source is a cons
and the final reverse-and-join is a plain join.  The hidden flag is only
ever assigned at finish and the forwarded flag only after finishing, so the
open fragment carries the quoted and signature flags and the lines. -/
structure OpenFrag where
  quoted : Bool
  forwarded : Bool
  signature : Bool
  lines : List (List Char)
deriving DecidableEq

/-- The mutable state of EmailMessage during read: finished fragments in
scan order, the current open fragment, and the found-visible flag. -/
structure ScanState where
  fragments : List Fragment
  fragment : Option OpenFrag
  found_visible : Bool
deriving DecidableEq

/-- EmailMessage.finish_fragment: freeze the open fragment (join its lines),
derive hidden from the found-visible flag, update the flag, append. -/
def finish_fragment (s : ScanState) : ScanState :=
  match s.fragment with
  | none => { s with fragment := none }
  | some f =>
    let content := joinLines f.lines
    if s.found_visible then
      { fragments := s.fragments ++
          [{ signature := f.signature, hidden := false, quoted := f.quoted,
             forwarded := f.forwarded, content := content }]
        fragment := none
        found_visible := true }
    else
      if f.quoted || f.signature || (pStrip content).isEmpty then
        { fragments := s.fragments ++
            [{ signature := f.signature, hidden := true, quoted := f.quoted,
               forwarded := f.forwarded, content := content }]
          fragment := none
          found_visible := false }
      else
        { fragments := s.fragments ++
            [{ signature := f.signature, hidden := false, quoted := f.quoted,
               forwarded := f.forwarded, content := content }]
          fragment := none
          found_visible := true }

/-- EmailMessage.scan_line.  The line is stripped; a forward header closes
the current fragment, marks every accumulated fragment forwarded and is
consumed; the signature pre-strip of the source calls lstrip and discards
the result, so it is a no-op and not modelled; an empty line closes a
fragment whose most recent line matches the signature pattern, marking it
as a signature; then the line joins the open fragment when the quoted
states agree, or when the open fragment is quoted and the line is a quote
header or blank, and otherwise a new fragment is opened with it (with
forwarded false, since a forward-header line returns early). -/
def scan_line (s : ScanState) (rawLine : List Char) : ScanState :=
  let line := pStrip rawLine
  if is_forward_header line then
    let s1 := finish_fragment s
    { s1 with fragments := s1.fragments.map (fun f => { f with forwarded := true }) }
  else
    let is_quoted := matchQuoted line
    let s1 :=
      match s.fragment with
      | some f =>
        if line.isEmpty && matchSig (f.lines.headD []) then
          finish_fragment { s with fragment := some { f with signature := true } }
        else s
      | none => s
    match s1.fragment with
    | some f =>
      if (f.quoted = is_quoted) || (f.quoted && (is_quote_header line || (pStrip line).isEmpty)) then
        { s1 with fragment := some { f with lines := line :: f.lines } }
      else
        let s2 := finish_fragment s1
        { s2 with fragment := some { quoted := is_quoted, forwarded := false,
                                     signature := false, lines := [line] } }
    | none =>
      let s2 := finish_fragment s1
      { s2 with fragment := some { quoted := is_quoted, forwarded := false,
                                   signature := false, lines := [line] } }

/-- The scan loop of EmailMessage.read on an already normalized text: split
into lines, reverse, scan, finish the last fragment.  The result is the
fragment list in scan order (reverse document order). -/
def scanFragments (text : List Char) : List Fragment :=
  (finish_fragment
    (((splitLines text).reverse).foldl scan_line
      { fragments := [], fragment := none, found_visible := false })).fragments

/-- EmailMessage.read on normalized text: the fragments in document order. -/
def scanAll (text : List Char) : List Fragment :=
  (scanFragments text).reverse

/-- EmailMessage(text).read(): normalize line endings, collapse the first
multi-line quote header (which can raise, propagated here as an error),
then scan.  Returns the fragments in document order. -/
def readMessage (text : List Char) : Except String (List Fragment) :=
  match collapseQuoteHdr (replaceCrlf text) with
  | .error e => .error e
  | .ok nt => .ok (scanAll nt)

/-- EmailMessage.reply: join the contents of the fragments that are neither
hidden nor quoted nor forwarded. -/
def replyOf (frags : List Fragment) : List Char :=
  joinLines ((frags.filter (fun f => !(f.hidden || f.quoted || f.forwarded))).map
    (fun f => f.content))

/-- EmailReplyParser.read, on Lean strings. -/
def readText (text : String) : Except String (List Fragment) :=
  readMessage text.data

/-- EmailReplyParser.parse_reply, on Lean strings. -/
def parse_reply (text : String) : Except String String :=
  match readMessage text.data with
  | .error e => .error e
  | .ok frags => .ok (String.mk (replyOf frags))

/-! ### Invariant definitions and decidability instances -/

/-! ### State-machine invariants: the text is partitioned into fragments -/

def markFwd (f : Fragment) : Fragment := { f with forwarded := true }

/-- The accumulated text of a scan state, as pieces in document order: the
open fragment (which sits above every finished fragment), then the finished
fragments' contents, most recently finished first. -/
def docPieces (s : ScanState) : List (List Char) :=
  (match s.fragment with
   | some f => [joinLines f.lines]
   | none => []) ++ (s.fragments.reverse).map (fun f => f.content)

/-- The open fragment always holds at least one line. -/
def OpenNE (s : ScanState) : Prop := ∀ f, s.fragment = some f → f.lines ≠ []

/-- One scanned line extends the accumulated stripped document lines, except
that a forward-header line is consumed. -/
def consFilt (l : List Char) (acc : List (List Char)) : List (List Char) :=
  if is_forward_header (pStrip l) then acc else pStrip l :: acc

def JoinInv (s : ScanState) (acc : List (List Char)) : Prop :=
  joinLines (docPieces s) = joinLines acc ∧ (docPieces s = [] ↔ acc = []) ∧ OpenNE s

/-! ### Visibility invariant (hidden flags and the found-visible flag) -/

/-- The condition under which finish_fragment hides a fragment when no
visible fragment was found yet: quoted, or signature, or stripped content
empty. -/
def fragCond (f : Fragment) : Bool :=
  f.quoted || f.signature || (pStrip f.content).isEmpty

/-- Each fragment's hidden flag matches the finalization rule: hidden holds
exactly when the fragment satisfies the hide condition and every fragment
finalized before it (in scan order) also does. -/
def HiddenOk (l : List Fragment) : Prop :=
  ∀ (i : Nat) (h : i < l.length),
    (l.get ⟨i, h⟩).hidden = (fragCond (l.get ⟨i, h⟩) && (l.take i).all fragCond)

def VisInv (s : ScanState) : Prop :=
  s.found_visible = s.fragments.any (fun f => !fragCond f) ∧ HiddenOk s.fragments

/-! ### Per-fragment line invariants -/

/-- Every line that enters a fragment is a stripped line that is not a
forward header and contains no newline. -/
def LineGood (l : List Char) : Prop :=
  pStrip l = l ∧ is_forward_header l = false ∧ '\n' ∉ l

/-- No interior blank line of a fragment sits directly above a line that
matches the signature pattern (otherwise the blank-line signature closure
would have split the fragment there). -/
def sigAdjP : List (List Char) → Prop
  | [] => True
  | [_] => True
  | a :: b :: rest => (a = [] → matchSig b = false) ∧ sigAdjP (b :: rest)

/-- Line invariants of a finished fragment, recovered from its content. -/
def FragInv (f : Fragment) : Prop :=
  (∀ l ∈ splitLines f.content, LineGood l) ∧
  (f.quoted = false → ∀ l ∈ splitLines f.content, matchQuoted l = false) ∧
  sigAdjP (splitLines f.content)

/-- Line invariants of the open fragment. -/
def OpenInv (o : OpenFrag) : Prop :=
  o.lines ≠ [] ∧ (∀ l ∈ o.lines, LineGood l) ∧
  (o.quoted = false → ∀ l ∈ o.lines, matchQuoted l = false) ∧
  sigAdjP o.lines ∧ o.forwarded = false

def StInv (s : ScanState) : Prop :=
  (∀ f ∈ s.fragments, FragInv f) ∧ (∀ o, s.fragment = some o → OpenInv o)

/-- Absence of a carriage-return--newline pair. -/
def NoCrlf : List Char → Prop
  | [] => True
  | c :: r => (c = '\r' → r.head? ≠ some '\n') ∧ NoCrlf r

instance {ε α : Type} [DecidableEq ε] [DecidableEq α] : DecidableEq (Except ε α) := fun a b =>
  match a, b with
  | .error x, .error y =>
    if h : x = y then .isTrue (by rw [h]) else .isFalse (fun hh => h (Except.error.inj hh))
  | .error _, .ok _ => .isFalse (fun hh => Except.noConfusion hh)
  | .ok _, .error _ => .isFalse (fun hh => Except.noConfusion hh)
  | .ok x, .ok y =>
    if h : x = y then .isTrue (by rw [h]) else .isFalse (fun hh => h (Except.ok.inj hh))

/-! ### Basic lemmas about stripping, splitting and joining -/

theorem pStrip_eq_rdrop (s : List Char) :
    pStrip s = List.rdropWhile isSpaceChar (s.dropWhile isSpaceChar) := rfl

theorem mem_pStrip {c : Char} {s : List Char} (h : c ∈ pStrip s) : c ∈ s := by
  rw [pStrip_eq_rdrop] at h
  obtain ⟨u, hu⟩ := List.rdropWhile_prefix isSpaceChar (s.dropWhile isSpaceChar)
  exact (List.dropWhile_sublist _).mem (by rw [← hu]; exact List.mem_append_left _ h)

theorem dropWhile_of_isPrefix {p : Char → Bool} {x y : List (Char)}
    (hp : x <+: y) (hy : List.dropWhile p y = y) : List.dropWhile p x = x := by
  cases x with
  | nil => rfl
  | cons c t =>
    obtain ⟨u, hu⟩ := hp
    have hc : p c = false := by
      rw [← hu] at hy
      by_contra hcc
      have hcc' : p c = true := by revert hcc; cases p c <;> simp
      have := congrArg List.length hy
      rw [List.cons_append, List.dropWhile_cons_of_pos hcc'] at this
      have hle : (List.dropWhile p (t ++ u)).length ≤ (t ++ u).length :=
        (List.dropWhile_sublist _).length_le
      simp only [List.length_cons, List.length_append] at this hle
      omega
    rw [List.dropWhile_cons_of_neg (by simp [hc])]

theorem pStrip_idem (s : List Char) : pStrip (pStrip s) = pStrip s := by
  rw [pStrip_eq_rdrop, pStrip_eq_rdrop]
  have h1 : List.dropWhile isSpaceChar (List.rdropWhile isSpaceChar (s.dropWhile isSpaceChar)) =
      List.rdropWhile isSpaceChar (s.dropWhile isSpaceChar) :=
    dropWhile_of_isPrefix ( List.rdropWhile_prefix _ _) (List.dropWhile_idempotent _ _)
  rw [h1, List.rdropWhile_idempotent]

theorem splitLines_ne_nil (s : List Char) : splitLines s ≠ [] := by
  cases s with
  | nil => simp [splitLines]
  | cons c r =>
    simp only [splitLines]
    split
    · simp
    · split <;> simp

theorem splitLines_cons_newline (r : List Char) :
    splitLines ('\n' :: r) = [] :: splitLines r := by
  simp [splitLines]

theorem splitLines_cons_of_ne {c : Char} (r : List Char) (h : c ≠ '\n') :
    splitLines (c :: r) =
      (c :: (splitLines r).headD []) :: (splitLines r).tail := by
  simp only [splitLines, if_neg h]
  match hr : splitLines r with
  | [] => exact absurd hr (splitLines_ne_nil r)
  | l :: ls => simp

theorem splitLines_append (a b : List Char) :
    splitLines (a ++ '\n' :: b) = splitLines a ++ splitLines b := by
  induction a with
  | nil => simp [splitLines]
  | cons c r ih =>
    by_cases hc : c = '\n'
    · subst hc
      rw [List.cons_append, splitLines_cons_newline, splitLines_cons_newline, ih]
      rfl
    · rw [List.cons_append, splitLines_cons_of_ne _ hc, splitLines_cons_of_ne _ hc, ih]
      match hr : splitLines r with
      | [] => exact absurd hr (splitLines_ne_nil r)
      | l :: ls => simp

theorem splitLines_no_newline {l : List Char} (h : '\n' ∉ l) : splitLines l = [l] := by
  induction l with
  | nil => rfl
  | cons c r ih =>
    have hc : c ≠ '\n' := fun hh => h (by simp [hh])
    rw [splitLines_cons_of_ne _ hc, ih (fun hh => h (by simp [hh]))]
    simp

theorem joinLines_cons (x : List Char) {xs : List (List Char)} (h : xs ≠ []) :
    joinLines (x :: xs) = x ++ '\n' :: joinLines xs := by
  cases xs with
  | nil => exact absurd rfl h
  | cons y ys => rfl

theorem splitLines_joinLines : ∀ {ls : List (List Char)}, (∀ l ∈ ls, '\n' ∉ l) → ls ≠ [] →
    splitLines (joinLines ls) = ls
  | [], _, h2 => absurd rfl h2
  | [x], h, _ => by
    simp only [joinLines]
    exact splitLines_no_newline (h x (by simp))
  | x :: y :: ys, h, _ => by
    rw [joinLines_cons x (by simp), splitLines_append,
      splitLines_no_newline (h x (by simp)),
      splitLines_joinLines (fun l hl => h l (by simp [hl])) (by simp)]
    rfl

theorem splitLines_joinLines_flatten : ∀ {cs : List (List Char)}, cs ≠ [] →
    splitLines (joinLines cs) = (cs.map splitLines).flatten
  | [], h2 => absurd rfl h2
  | [x], _ => by simp [joinLines]
  | x :: y :: ys, _ => by
    rw [joinLines_cons x (by simp), splitLines_append,
      splitLines_joinLines_flatten (by simp)]
    simp

theorem mem_splitLines_no_newline : ∀ {t l : List Char}, l ∈ splitLines t → '\n' ∉ l := by
  intro t
  induction t with
  | nil => intro l h; simp [splitLines] at h; simp [h]
  | cons c r ih =>
    intro l h
    by_cases hc : c = '\n'
    · subst hc
      rw [splitLines_cons_newline] at h
      rcases List.mem_cons.mp h with h | h
      · simp [h]
      · exact ih h
    · rw [splitLines_cons_of_ne _ hc] at h
      rcases List.mem_cons.mp h with h | h
      · subst h
        intro hmem
        rcases List.mem_cons.mp hmem with h | h
        · exact hc h.symm
        · match hr : splitLines r with
          | [] => exact absurd hr (splitLines_ne_nil r)
          | x :: xs =>
            rw [hr] at h
            exact ih (by rw [hr]; simp) h
      · match hr : splitLines r with
        | [] => exact absurd hr (splitLines_ne_nil r)
        | x :: xs =>
          rw [hr] at h
          exact ih (by rw [hr]; exact List.mem_cons_of_mem _ h)

theorem pStrip_no_newline {l : List Char} (h : '\n' ∉ l) : '\n' ∉ pStrip l :=
  fun hh => h (mem_pStrip hh)

theorem fragment_finish (s : ScanState) : (finish_fragment s).fragment = none := by
  match h : s.fragment with
  | none => simp [finish_fragment, h]
  | some f =>
    simp only [finish_fragment, h]
    split_ifs <;> rfl

theorem fragments_finish (s : ScanState) :
    (finish_fragment s).fragments =
      match s.fragment with
      | none => s.fragments
      | some f =>
        s.fragments ++
          [{ signature := f.signature,
             hidden := !s.found_visible &&
               (f.quoted || f.signature || (pStrip (joinLines f.lines)).isEmpty),
             quoted := f.quoted, forwarded := f.forwarded,
             content := joinLines f.lines }] := by
  match h : s.fragment with
  | none => simp [finish_fragment, h]
  | some f =>
    simp only [finish_fragment, h]
    split_ifs with h1 h2
    · simp [h1]
    · simp [h1, h2]
    · simp only [h1, h2]
      simp

theorem docPieces_finish (s : ScanState) : docPieces (finish_fragment s) = docPieces s := by
  have hf := fragments_finish s
  have hn := fragment_finish s
  match h : s.fragment with
  | none =>
    rw [h] at hf
    simp [docPieces, hf, hn, h]
  | some f =>
    rw [h] at hf
    simp [docPieces, hf, hn, h]

theorem docPieces_sigset (s : ScanState) (f : OpenFrag) (h : s.fragment = some f) :
    docPieces { s with fragment := some { f with signature := true } } = docPieces s := by
  simp [docPieces, h]

theorem joinLines_head_append (x y : List Char) (R : List (List Char)) :
    joinLines ((x ++ '\n' :: y) :: R) = x ++ '\n' :: joinLines (y :: R) := by
  cases R with
  | nil => simp [joinLines]
  | cons r rs =>
    rw [joinLines_cons _ (by simp : (r :: rs) ≠ []),
      joinLines_cons _ (by simp : (r :: rs) ≠ [])]
    simp

/-- Claim C8, local part: a forward-header line closes the open fragment,
marks every accumulated fragment forwarded and is itself consumed. -/
theorem scan_line_forward (s : ScanState) (l : List Char)
    (hf : is_forward_header (pStrip l) = true) :
    scan_line s l =
      { fragments := (finish_fragment s).fragments.map markFwd,
        fragment := none,
        found_visible := (finish_fragment s).found_visible } := by
  simp only [scan_line, hf, if_true]
  have hn := fragment_finish s
  cases hq : (finish_fragment s) with
  | mk a b c =>
    rw [hq] at hn
    simp at hn
    simp [markFwd, hn]

theorem docPieces_map_markFwd (frs : List Fragment) :
    ((frs.map markFwd).reverse).map (fun f => f.content) =
      (frs.reverse).map (fun f => f.content) := by
  simp [markFwd]

theorem finish_none {s : ScanState} (h : s.fragment = none) :
    finish_fragment s = { fragments := s.fragments, fragment := none,
                          found_visible := s.found_visible } := by
  simp [finish_fragment, h]

/-- Branch lemma: no forward header, no open fragment: a fresh fragment is
opened with the stripped line. -/
theorem scan_line_open {s : ScanState} (l : List Char)
    (hf : is_forward_header (pStrip l) = false) (hfr : s.fragment = none) :
    scan_line s l =
      { fragments := s.fragments,
        fragment := some { quoted := matchQuoted (pStrip l), forwarded := false,
                           signature := false, lines := [pStrip l] },
        found_visible := s.found_visible } := by
  simp only [scan_line]
  rw [if_neg (by simp [hf])]
  simp only [hfr, finish_none hfr]

/-- Branch lemma: signature closure: an empty line after a fragment whose
most recent line matches the signature pattern closes it as a signature and
opens a fresh fragment holding the empty line. -/
theorem scan_line_sigclose {s : ScanState} {f : OpenFrag} (l : List Char)
    (hf : is_forward_header (pStrip l) = false) (hfr : s.fragment = some f)
    (hsig : ((pStrip l).isEmpty && matchSig (f.lines.headD [])) = true) :
    scan_line s l =
      { fragments :=
          (finish_fragment { s with fragment := some { f with signature := true } }).fragments,
        fragment := some { quoted := matchQuoted (pStrip l), forwarded := false,
                           signature := false, lines := [pStrip l] },
        found_visible :=
          (finish_fragment { s with fragment := some { f with signature := true } }).found_visible } := by
  have h1 := fragment_finish { s with fragment := some { f with signature := true } }
  simp only [scan_line]
  rw [if_neg (by simp [hf])]
  simp only [hfr]
  rw [hsig, if_pos rfl]
  simp only [h1, finish_none h1]

/-- Branch lemma: continuation: the stripped line joins the open fragment. -/
theorem scan_line_append {s : ScanState} {f : OpenFrag} (l : List Char)
    (hf : is_forward_header (pStrip l) = false) (hfr : s.fragment = some f)
    (hsig : ((pStrip l).isEmpty && matchSig (f.lines.headD [])) = false)
    (hcont : ((f.quoted = matchQuoted (pStrip l)) ||
      (f.quoted && (is_quote_header (pStrip l) || (pStrip (pStrip l)).isEmpty))) = true) :
    scan_line s l = { s with fragment := some { f with lines := pStrip l :: f.lines } } := by
  simp only [scan_line]
  rw [if_neg (by simp [hf])]
  simp only [hfr]
  rw [hsig, if_neg Bool.false_ne_true]
  simp only [hfr]
  rw [hcont, if_pos rfl]

/-- Branch lemma: boundary: the line belongs to neither side, so the open
fragment is finished and a fresh fragment is opened with the line. -/
theorem scan_line_newfrag {s : ScanState} {f : OpenFrag} (l : List Char)
    (hf : is_forward_header (pStrip l) = false) (hfr : s.fragment = some f)
    (hsig : ((pStrip l).isEmpty && matchSig (f.lines.headD [])) = false)
    (hcont : ((f.quoted = matchQuoted (pStrip l)) ||
      (f.quoted && (is_quote_header (pStrip l) || (pStrip (pStrip l)).isEmpty))) = false) :
    scan_line s l =
      { fragments := (finish_fragment s).fragments,
        fragment := some { quoted := matchQuoted (pStrip l), forwarded := false,
                           signature := false, lines := [pStrip l] },
        found_visible := (finish_fragment s).found_visible } := by
  simp only [scan_line]
  rw [if_neg (by simp [hf])]
  simp only [hfr]
  rw [hsig, if_neg Bool.false_ne_true]
  simp only [hfr]
  rw [hcont, if_neg Bool.false_ne_true]

/-- Opening a fresh single-line fragment on top of a state with no open
fragment preserves the join invariant, extending the accumulator. -/
theorem JoinInv_create (s' : ScanState) (acc : List (List Char)) (q : Bool) (line : List Char)
    (hfr : s'.fragment = none)
    (hj : joinLines (docPieces s') = joinLines acc)
    (hiff : docPieces s' = [] ↔ acc = []) :
    JoinInv { fragments := s'.fragments,
              fragment := some { quoted := q, forwarded := false,
                                 signature := false, lines := [line] },
              found_visible := s'.found_visible } (line :: acc) := by
  have hp : docPieces { fragments := s'.fragments, fragment := some ({ quoted := q, forwarded := false, signature := false, lines := [line] } : OpenFrag), found_visible := s'.found_visible } = line :: docPieces s' := by
    simp [docPieces, hfr, joinLines]
  refine ⟨?_, ?_, ?_⟩
  · rw [hp]
    match hdp : docPieces s' with
    | [] =>
      have hacc : acc = [] := hiff.mp hdp
      subst hacc
      simp [joinLines]
    | p :: ps =>
      have hacc : acc ≠ [] := fun hh => by
        rw [hiff.mpr hh] at hdp; exact List.noConfusion hdp
      rw [joinLines_cons _ (by simp), joinLines_cons _ hacc, ← hdp, hj]
  · rw [hp]
    constructor
    · intro hh; exact absurd hh (by simp)
    · intro hh; exact absurd hh (by simp)
  · intro g hg
    simp only [Option.some.injEq] at hg
    rw [← hg]
    simp

theorem step_JoinInv (s : ScanState) (acc : List (List Char)) (l : List Char)
    (h : JoinInv s acc) : JoinInv (scan_line s l) (consFilt l acc) := by
  obtain ⟨hj, hiff, hne⟩ := h
  by_cases hf : is_forward_header (pStrip l) = true
  · rw [scan_line_forward s l hf]
    have hdp : docPieces { fragments := (finish_fragment s).fragments.map markFwd, fragment := none, found_visible := (finish_fragment s).found_visible } = docPieces (finish_fragment s) := by
      simp [docPieces, docPieces_map_markFwd, fragment_finish s, markFwd]
    refine ⟨?_, ?_, ?_⟩
    · rw [hdp, docPieces_finish, hj, consFilt, if_pos hf]
    · rw [hdp, docPieces_finish, consFilt, if_pos hf]; exact hiff
    · intro f hfr; simp at hfr
  · have hf' : is_forward_header (pStrip l) = false := by
      revert hf; cases is_forward_header (pStrip l) <;> simp
    have hcf : consFilt l acc = pStrip l :: acc := by rw [consFilt, if_neg (by simp [hf'])]
    rw [hcf]
    match hfr : s.fragment with
    | none =>
      rw [scan_line_open l hf' hfr]
      exact JoinInv_create s acc _ _ hfr hj hiff
    | some f =>
      match hsig : ((pStrip l).isEmpty && matchSig (f.lines.headD [])) with
      | true =>
        rw [scan_line_sigclose l hf' hfr hsig]
        have e1 : docPieces (finish_fragment { s with fragment := some { f with signature := true } }) =
            docPieces s := by
          rw [docPieces_finish, docPieces_sigset s f hfr]
        refine JoinInv_create _ acc _ _ (fragment_finish _) ?_ ?_
        · rw [e1]; exact hj
        · rw [e1]; exact hiff
      | false =>
        match hcont : ((f.quoted = matchQuoted (pStrip l)) ||
            (f.quoted && (is_quote_header (pStrip l) || (pStrip (pStrip l)).isEmpty))) with
        | true =>
          rw [scan_line_append l hf' hfr hsig hcont]
          have hfl : f.lines ≠ [] := hne f hfr
          have hdocs : docPieces s = joinLines f.lines :: (s.fragments.reverse).map (fun g => g.content) := by
            simp [docPieces, hfr]
          have hdocs' : docPieces { s with fragment := some { f with lines := pStrip l :: f.lines } } =
              joinLines (pStrip l :: f.lines) :: (s.fragments.reverse).map (fun g => g.content) := by
            simp [docPieces]
          refine ⟨?_, ?_, ?_⟩
          · rw [hdocs', joinLines_cons _ hfl, joinLines_head_append, ← hdocs, hj,
              joinLines_cons _ ?_]
            intro hh
            rw [hiff.mpr hh] at hdocs
            exact List.noConfusion hdocs
          · rw [hdocs']
            constructor
            · intro hh; exact absurd hh (by simp)
            · intro hh; exact absurd hh (by simp)
          · intro g hg
            simp only [Option.some.injEq] at hg
            rw [← hg]
            simp
        | false =>
          rw [scan_line_newfrag l hf' hfr hsig hcont]
          exact JoinInv_create (finish_fragment s) acc _ _ (fragment_finish s)
            (by rw [docPieces_finish]; exact hj)
            (by rw [docPieces_finish]; exact hiff)

theorem JoinInv_finish {s : ScanState} {acc : List (List Char)}
    (h : JoinInv s acc) : JoinInv (finish_fragment s) acc := by
  obtain ⟨hj, hiff, _⟩ := h
  refine ⟨?_, ?_, ?_⟩
  · rw [docPieces_finish]; exact hj
  · rw [docPieces_finish]; exact hiff
  · intro f hf
    rw [fragment_finish s] at hf
    exact Option.noConfusion hf

theorem foldl_JoinInv : ∀ (L : List (List Char)) (s : ScanState) (acc : List (List Char)),
    JoinInv s acc → JoinInv (L.foldl scan_line s) (L.foldl (fun a l => consFilt l a) acc)
  | [], _, _, h => h
  | l :: L, s, acc, h => foldl_JoinInv L _ _ (step_JoinInv s acc l h)

theorem foldl_consFilt_reverse : ∀ ls : List (List Char),
    (ls.reverse).foldl (fun a l => consFilt l a) [] =
      ((ls.map pStrip).filter (fun l => !is_forward_header l)) := by
  intro ls
  induction ls with
  | nil => rfl
  | cons x xs ih =>
    rw [List.reverse_cons, List.foldl_append, ih]
    simp only [List.foldl_cons, List.foldl_nil, List.map_cons, List.filter_cons]
    rw [consFilt]
    match hfw : is_forward_header (pStrip x) with
    | true => simp [hfw]
    | false => simp [hfw]

/-- The scan partitions the stripped, forward-filtered lines: joining all
fragment contents in document order reproduces the normalized text with
each line stripped and forward-header lines removed. -/
theorem scanAll_reconstruct (nt : List Char) :
    joinLines ((scanAll nt).map (fun f => f.content)) =
      joinLines (((splitLines nt).map pStrip).filter (fun l => !is_forward_header l)) := by
  have h0 : JoinInv { fragments := [], fragment := none, found_visible := false } [] := by
    refine ⟨rfl, Iff.rfl, ?_⟩
    intro f hf
    exact Option.noConfusion hf
  have h1 := foldl_JoinInv ((splitLines nt).reverse) _ [] h0
  have h2 := JoinInv_finish h1
  obtain ⟨hj, _, _⟩ := h2
  have hdp : docPieces (finish_fragment (((splitLines nt).reverse).foldl scan_line { fragments := [], fragment := none, found_visible := false })) = ((scanFragments nt).reverse).map (fun f => f.content) := by
    simp [docPieces, fragment_finish, scanFragments]
  rw [hdp] at hj
  rw [foldl_consFilt_reverse] at hj
  exact hj

theorem HiddenOk_append {l : List Fragment} {x : Fragment} (h : HiddenOk l)
    (hx : x.hidden = (fragCond x && l.all fragCond)) : HiddenOk (l ++ [x]) := by
  intro i hi
  have hlen : i < l.length + 1 := by simpa using hi
  by_cases hil : i < l.length
  · have e1 : (l ++ [x]).get ⟨i, hi⟩ = l.get ⟨i, hil⟩ := by
      simp [List.get_eq_getElem, List.getElem_append_left hil]
    have e2 : (l ++ [x]).take i = l.take i := by
      rw [List.take_append_eq_append_take, show i - l.length = 0 by omega]
      simp
    rw [e1, e2]
    exact h i hil
  · have hieq : i = l.length := by omega
    subst hieq
    have e1 : (l ++ [x]).get ⟨l.length, hi⟩ = x := by
      simp [List.get_eq_getElem]
    have e2 : (l ++ [x]).take l.length = l := by
      rw [List.take_append_eq_append_take]
      simp
    rw [e1, e2]
    exact hx

theorem found_visible_finish (s : ScanState) :
    (finish_fragment s).found_visible =
      (s.found_visible ||
        (match s.fragment with
         | none => false
         | some f => !(f.quoted || f.signature || (pStrip (joinLines f.lines)).isEmpty))) := by
  match h : s.fragment with
  | none => simp [finish_fragment, h]
  | some f =>
    simp only [finish_fragment, h]
    split_ifs with h1 h2
    · simp [h1]
    · simp [h1, h2]
    · simp only [h1, h2]
      simp

theorem VisInv_finish {s : ScanState} (h : VisInv s) : VisInv (finish_fragment s) := by
  obtain ⟨hfv, hhid⟩ := h
  have hfrag := fragments_finish s
  have hfvf := found_visible_finish s
  match hf : s.fragment with
  | none =>
    rw [hf] at hfrag hfvf
    refine ⟨?_, ?_⟩
    · rw [hfvf, hfrag, hfv]
      simp
    · rw [hfrag]; exact hhid
  | some f =>
    set g : Fragment :=
      { signature := f.signature,
        hidden := !s.found_visible &&
          (f.quoted || f.signature || (pStrip (joinLines f.lines)).isEmpty),
        quoted := f.quoted, forwarded := f.forwarded,
        content := joinLines f.lines } with hg
    have hcondg : fragCond g = (f.quoted || f.signature || (pStrip (joinLines f.lines)).isEmpty) := rfl
    have hfrag2 : (finish_fragment s).fragments = s.fragments ++ [g] := by
      rw [fragments_finish s, hf]
    have hfvf2 : (finish_fragment s).found_visible =
        (s.found_visible || !(f.quoted || f.signature || (pStrip (joinLines f.lines)).isEmpty)) := by
      rw [found_visible_finish s, hf]
    refine ⟨?_, ?_⟩
    · rw [hfvf2, hfrag2, hfv, List.any_append]
      simp only [List.any_cons, List.any_nil, Bool.or_false]
      rw [hcondg]
    · rw [hfrag2]
      refine HiddenOk_append hhid ?_
      have hh : g.hidden = (!s.found_visible && fragCond g) := rfl
      rw [hh, hfv, Bool.and_comm]
      congr 1
      rw [← List.all_eq_not_any_not]

theorem fragCond_markFwd (f : Fragment) : fragCond (markFwd f) = fragCond f := rfl

theorem HiddenOk_map_markFwd {l : List Fragment} (h : HiddenOk l) :
    HiddenOk (l.map markFwd) := by
  intro i hi
  have hi' : i < l.length := by simpa using hi
  have e1 : (l.map markFwd).get ⟨i, hi⟩ = markFwd (l.get ⟨i, hi'⟩) := by
    simp [List.get_eq_getElem]
  have e2 : (l.map markFwd).take i = (l.take i).map markFwd := (List.map_take markFwd l i).symm
  rw [e1, e2]
  have e3 : (markFwd (l.get ⟨i, hi'⟩)).hidden = (l.get ⟨i, hi'⟩).hidden := rfl
  rw [e3, fragCond_markFwd, h i hi']
  congr 1
  rw [List.all_map]
  rfl

theorem VisInv_scan {s : ScanState} (l : List Char) (h : VisInv s) :
    VisInv (scan_line s l) := by
  by_cases hf : is_forward_header (pStrip l) = true
  · rw [scan_line_forward s l hf]
    have hfin := VisInv_finish h
    obtain ⟨hfv, hhid⟩ := hfin
    refine ⟨?_, HiddenOk_map_markFwd hhid⟩
    rw [hfv, List.any_map]
    rfl
  · have hf' : is_forward_header (pStrip l) = false := by
      revert hf; cases is_forward_header (pStrip l) <;> simp
    match hfr : s.fragment with
    | none =>
      rw [scan_line_open l hf' hfr]
      exact h
    | some f =>
      match hsig : ((pStrip l).isEmpty && matchSig (f.lines.headD [])) with
      | true =>
        rw [scan_line_sigclose l hf' hfr hsig]
        have h' : VisInv { s with fragment := some { f with signature := true } } := h
        have hfin := VisInv_finish h'
        exact hfin
      | false =>
        match hcont : ((f.quoted = matchQuoted (pStrip l)) ||
            (f.quoted && (is_quote_header (pStrip l) || (pStrip (pStrip l)).isEmpty))) with
        | true =>
          rw [scan_line_append l hf' hfr hsig hcont]
          exact h
        | false =>
          rw [scan_line_newfrag l hf' hfr hsig hcont]
          exact VisInv_finish h

theorem foldl_VisInv : ∀ (L : List (List Char)) (s : ScanState),
    VisInv s → VisInv (L.foldl scan_line s)
  | [], _, h => h
  | l :: L, _, h => foldl_VisInv L _ (VisInv_scan l h)

/-- The hidden flags of the scan的 fragment list (in scan order) satisfy
the finalization rule. -/
theorem scanFragments_HiddenOk (nt : List Char) : HiddenOk (scanFragments nt) := by
  have h0 : VisInv { fragments := [], fragment := none, found_visible := false } := by
    refine ⟨by simp, ?_⟩
    intro i hi
    simp at hi
  have h1 := foldl_VisInv ((splitLines nt).reverse) _ h0
  have h2 := VisInv_finish h1
  exact h2.2

theorem FragInv_markFwd {f : Fragment} (h : FragInv f) : FragInv (markFwd f) := h

theorem StInv_finish {s : ScanState} (h : StInv s) : StInv (finish_fragment s) := by
  obtain ⟨hfr, hop⟩ := h
  refine ⟨?_, ?_⟩
  · intro f hf
    rw [fragments_finish s] at hf
    match ho : s.fragment with
    | none =>
      rw [ho] at hf
      exact hfr f hf
    | some o =>
      rw [ho] at hf
      rcases List.mem_append.mp hf with hf | hf
      · exact hfr f hf
      · obtain ⟨hne, hgood, hq, hadj, _⟩ := hop o ho
        have hcontent : splitLines (joinLines o.lines) = o.lines :=
          splitLines_joinLines (fun l hl => (hgood l hl).2.2) hne
        rcases List.mem_singleton.mp hf with rfl
        refine ⟨?_, ?_, ?_⟩
        · intro l hl
          rw [hcontent] at hl
          exact hgood l hl
        · intro hquot l hl
          rw [hcontent] at hl
          exact hq hquot l hl
        · rw [hcontent]
          exact hadj
  · intro o ho
    rw [fragment_finish s] at ho
    exact Option.noConfusion ho

theorem StInv_scan {s : ScanState} {rawLine : List Char} (hnl : '\n' ∉ rawLine)
    (h : StInv s) : StInv (scan_line s rawLine) := by
  by_cases hf : is_forward_header (pStrip rawLine) = true
  · rw [scan_line_forward s rawLine hf]
    obtain ⟨hfr, _⟩ := StInv_finish h
    refine ⟨?_, ?_⟩
    · intro f hfm
      rcases List.mem_map.mp hfm with ⟨g, hg, rfl⟩
      exact FragInv_markFwd (hfr g hg)
    · intro o ho
      exact Option.noConfusion ho
  · have hf' : is_forward_header (pStrip rawLine) = false := by
      revert hf; cases is_forward_header (pStrip rawLine) <;> simp
    have hgood : LineGood (pStrip rawLine) := ⟨pStrip_idem rawLine, hf', pStrip_no_newline hnl⟩
    match hfr : s.fragment with
    | none =>
      rw [scan_line_open rawLine hf' hfr]
      refine ⟨h.1, ?_⟩
      intro o ho
      rcases Option.some.inj ho with rfl
      refine ⟨by simp, ?_, ?_, trivial, rfl⟩
      · intro l hl
        rcases List.mem_singleton.mp hl with rfl
        exact hgood
      · intro hquot l hl
        rcases List.mem_singleton.mp hl with rfl
        simpa using hquot
    | some f =>
      have hofi := h.2 f hfr
      match hsig : ((pStrip rawLine).isEmpty && matchSig (f.lines.headD [])) with
      | true =>
        rw [scan_line_sigclose rawLine hf' hfr hsig]
        have hsig' : StInv { s with fragment := some { f with signature := true } } := by
          refine ⟨h.1, ?_⟩
          intro o ho
          rcases Option.some.inj ho with rfl
          exact hofi
        obtain ⟨hfin1, _⟩ := StInv_finish hsig'
        refine ⟨hfin1, ?_⟩
        intro o ho
        rcases Option.some.inj ho with rfl
        refine ⟨by simp, ?_, ?_, trivial, rfl⟩
        · intro l hl
          rcases List.mem_singleton.mp hl with rfl
          exact hgood
        · intro hquot l hl
          rcases List.mem_singleton.mp hl with rfl
          simpa using hquot
      | false =>
        match hcont : ((f.quoted = matchQuoted (pStrip rawLine)) ||
            (f.quoted && (is_quote_header (pStrip rawLine) || (pStrip (pStrip rawLine)).isEmpty))) with
        | true =>
          rw [scan_line_append rawLine hf' hfr hsig hcont]
          obtain ⟨hne, hgoodf, hq, hadj, hfwd⟩ := hofi
          refine ⟨h.1, ?_⟩
          intro o ho
          rcases Option.some.inj ho with rfl
          refine ⟨by simp, ?_, ?_, ?_, hfwd⟩
          · intro l hl
            rcases List.mem_cons.mp hl with rfl | hl
            · exact hgood
            · exact hgoodf l hl
          · intro hquot l hl
            rcases List.mem_cons.mp hl with rfl | hl
            · have hq1 : (decide (f.quoted = matchQuoted (pStrip rawLine)) ||
                  f.quoted && (is_quote_header (pStrip rawLine) || (pStrip (pStrip rawLine)).isEmpty)) = true := hcont
              rw [hquot] at hq1
              simp only [Bool.false_and, Bool.or_false] at hq1
              have : false = matchQuoted (pStrip rawLine) := of_decide_eq_true hq1
              exact this.symm
            · exact hq hquot l hl
          · match hfl : f.lines with
            | [] => exact absurd hfl hne
            | b :: rest =>
              refine ⟨?_, by rw [← hfl]; exact hadj⟩
              intro hempty
              have hsig2 : ((pStrip rawLine).isEmpty && matchSig (f.lines.headD [])) = false := hsig
              rw [hempty, hfl] at hsig2
              simpa using hsig2
        | false =>
          rw [scan_line_newfrag rawLine hf' hfr hsig hcont]
          obtain ⟨hfin1, _⟩ := StInv_finish h
          refine ⟨hfin1, ?_⟩
          intro o ho
          rcases Option.some.inj ho with rfl
          refine ⟨by simp, ?_, ?_, trivial, rfl⟩
          · intro l hl
            rcases List.mem_singleton.mp hl with rfl
            exact hgood
          · intro hquot l hl
            rcases List.mem_singleton.mp hl with rfl
            simpa using hquot

theorem foldl_StInv : ∀ (L : List (List Char)) (s : ScanState),
    (∀ l ∈ L, '\n' ∉ l) → StInv s → StInv (L.foldl scan_line s)
  | [], _, _, h => h
  | l :: L, _, hnl, h =>
    foldl_StInv L _ (fun x hx => hnl x (List.mem_cons_of_mem _ hx))
      (StInv_scan (hnl l (List.mem_cons_self _ _)) h)

/-- Every fragment of a scan satisfies the per-fragment line invariants. -/
theorem scanAll_FragInv (nt : List Char) : ∀ f ∈ scanAll nt, FragInv f := by
  intro f hf
  have h0 : StInv { fragments := [], fragment := none, found_visible := false } := by
    refine ⟨?_, ?_⟩
    · intro g hg; exact absurd hg (List.not_mem_nil g)
    · intro o ho; exact Option.noConfusion ho
  have h1 := foldl_StInv ((splitLines nt).reverse) _
    (fun l hl => mem_splitLines_no_newline (List.mem_reverse.mp hl)) h0
  have h2 := StInv_finish h1
  exact h2.1 f (by
    have : f ∈ scanFragments nt := List.mem_reverse.mp hf
    exact this)

/-! ### Forward-marking machinery (claim C8) -/

/-- Scanning lines none of which is a forward header only ever appends new
fragments, and none of them is marked forwarded. -/
theorem no_forward_new : ∀ (L : List (List Char)) (s : ScanState),
    (∀ l ∈ L, is_forward_header (pStrip l) = false) →
    (∀ o, s.fragment = some o → o.forwarded = false) →
    ∃ new : List Fragment,
      (finish_fragment (L.foldl scan_line s)).fragments = s.fragments ++ new ∧
      ∀ f ∈ new, f.forwarded = false := by
  intro L
  induction L with
  | nil =>
    intro s _ hop
    match ho : s.fragment with
    | none =>
      refine ⟨[], ?_, ?_⟩
      · rw [List.foldl_nil, fragments_finish s, ho]
        simp
      · intro f hf; exact absurd hf (List.not_mem_nil f)
    | some o =>
      refine ⟨[{ signature := o.signature, hidden := !s.found_visible && (o.quoted || o.signature || (pStrip (joinLines o.lines)).isEmpty), quoted := o.quoted, forwarded := o.forwarded, content := joinLines o.lines }], ?_, ?_⟩
      · rw [List.foldl_nil, fragments_finish s, ho]
      · intro f hf
        rcases List.mem_singleton.mp hf with rfl
        exact hop o ho
  | cons l L ih =>
    intro s hnf hop
    have hf' : is_forward_header (pStrip l) = false := hnf l (List.mem_cons_self _ _)
    have hnf' : ∀ x ∈ L, is_forward_header (pStrip x) = false :=
      fun x hx => hnf x (List.mem_cons_of_mem _ hx)
    rw [List.foldl_cons]
    -- establish the shape of the state after one step
    have key : ∃ new0 : List Fragment, (scan_line s l).fragments = s.fragments ++ new0 ∧
        (∀ f ∈ new0, f.forwarded = false) ∧
        (∀ o, (scan_line s l).fragment = some o → o.forwarded = false) := by
      match hfr : s.fragment with
      | none =>
        rw [scan_line_open l hf' hfr]
        exact ⟨[], by simp, fun f hf => absurd hf (List.not_mem_nil f),
          fun o ho => by rcases Option.some.inj ho with rfl; rfl⟩
      | some f =>
        match hsig : ((pStrip l).isEmpty && matchSig (f.lines.headD [])) with
        | true =>
          rw [scan_line_sigclose l hf' hfr hsig]
          refine ⟨[{ signature := true, hidden := !s.found_visible && (f.quoted || true || (pStrip (joinLines f.lines)).isEmpty), quoted := f.quoted, forwarded := f.forwarded, content := joinLines f.lines }], ?_, ?_, ?_⟩
          · rw [fragments_finish]
          · intro g hg
            rcases List.mem_singleton.mp hg with rfl
            exact hop f hfr
          · intro o ho
            rcases Option.some.inj ho with rfl
            rfl
        | false =>
          match hcont : ((f.quoted = matchQuoted (pStrip l)) ||
              (f.quoted && (is_quote_header (pStrip l) || (pStrip (pStrip l)).isEmpty))) with
          | true =>
            rw [scan_line_append l hf' hfr hsig hcont]
            exact ⟨[], by simp, fun g hg => absurd hg (List.not_mem_nil g),
              fun o ho => by rcases Option.some.inj ho with rfl; exact hop f hfr⟩
          | false =>
            rw [scan_line_newfrag l hf' hfr hsig hcont]
            refine ⟨[{ signature := f.signature, hidden := !s.found_visible && (f.quoted || f.signature || (pStrip (joinLines f.lines)).isEmpty), quoted := f.quoted, forwarded := f.forwarded, content := joinLines f.lines }], ?_, ?_, ?_⟩
            · rw [fragments_finish, hfr]
            · intro g hg
              rcases List.mem_singleton.mp hg with rfl
              exact hop f hfr
            · intro o ho
              rcases Option.some.inj ho with rfl
              rfl
    obtain ⟨new0, hfrags0, hnew0, hop0⟩ := key
    obtain ⟨new1, hfrags1, hnew1⟩ := ih (scan_line s l) hnf' hop0
    refine ⟨new0 ++ new1, ?_, ?_⟩
    · rw [hfrags1, hfrags0, List.append_assoc]
    · intro f hf
      rcases List.mem_append.mp hf with hf | hf
      · exact hnew0 f hf
      · exact hnew1 f hf

/-! ### Re-scanning a clean content string (claim C9 machinery) -/

theorem joinLines_splitLines : ∀ t : List Char, joinLines (splitLines t) = t := by
  intro t
  induction t with
  | nil => rfl
  | cons c r ih =>
    by_cases hc : c = '\n'
    · subst hc
      rw [splitLines_cons_newline, joinLines_cons _ (splitLines_ne_nil r), ih]
      rfl
    · rw [splitLines_cons_of_ne _ hc]
      match hr : splitLines r with
      | [] => exact absurd hr (splitLines_ne_nil r)
      | x :: xs =>
        rw [hr] at ih
        match xs with
        | [] =>
          simp only [List.headD, List.tail]
          simp only [joinLines] at ih ⊢
          rw [ih]
        | y :: ys =>
          simp only [List.headD, List.tail]
          rw [joinLines_cons _ (by simp : (y :: ys) ≠ [])]
          rw [joinLines_cons _ (by simp : (y :: ys) ≠ [])] at ih
          rw [List.cons_append, ih]

theorem replaceCrlf_eq_self : ∀ {t : List Char}, NoCrlf t → replaceCrlf t = t
  | [], _ => rfl
  | [_], _ => rfl
  | c :: d :: r, h => by
    have hcd : ¬(c = '\r' ∧ d = '\n') := by
      rintro ⟨hc, hd⟩
      exact h.1 hc (by rw [hd]; rfl)
    show (if c = '\r' ∧ d = '\n' then '\n' :: replaceCrlf r else c :: replaceCrlf (d :: r)) = c :: d :: r
    rw [if_neg hcd, replaceCrlf_eq_self h.2]

/-- A nonempty stripped line does not end in a whitespace character. -/
theorem stripped_rdrop {l : List Char} (h : pStrip l = l) :
    List.rdropWhile isSpaceChar l = l := by
  rw [pStrip_eq_rdrop] at h
  conv_lhs => rw [← h]
  rw [List.rdropWhile_idempotent, h]

theorem NoCrlf_line_append : ∀ (l rest : List Char), '\n' ∉ l →
    (l = [] ∨ ∀ hne : l ≠ [], isSpaceChar (l.getLast hne) = false) →
    NoCrlf rest → (rest = [] ∨ rest.head? = some '\n') →
    NoCrlf (l ++ rest) := by
  intro l
  induction l with
  | nil => intro rest _ _ h _; exact h
  | cons c l' ih =>
    intro rest hnl hlast hrest hresthead
    have hlast' : ∀ hne : (c :: l') ≠ [], isSpaceChar ((c :: l').getLast hne) = false := by
      rcases hlast with hl | hl
      · exact absurd hl (by simp)
      · exact hl
    refine ⟨?_, ?_⟩
    · intro hc hh
      match hl' : l' with
      | [] =>
        have hcl : isSpaceChar c = false := by
          have h2 := hlast' (by simp)
          simpa [List.getLast] using h2
        rw [hc] at hcl
        exact absurd hcl (by simp [isSpaceChar])
      | x :: l'' =>
        have hx : x = '\n' := by simpa using hh
        exact hnl (by simp [hx])
    · refine ih rest (fun hm => hnl (List.mem_cons_of_mem _ hm)) ?_ hrest hresthead
      match hl' : l' with
      | [] => exact Or.inl rfl
      | x :: l'' =>
        refine Or.inr ?_
        intro hne
        have h2 := hlast' (by simp)
        rwa [List.getLast_cons_cons c x l''] at h2

theorem NoCrlf_joinLines : ∀ ls : List (List Char),
    (∀ l ∈ ls, '\n' ∉ l ∧ pStrip l = l) → NoCrlf (joinLines ls) := by
  intro ls
  induction ls with
  | nil => intro _; trivial
  | cons l ls ih =>
    intro hp
    have h1 := hp l (by simp)
    have hlast : l = [] ∨ ∀ hne : l ≠ [], isSpaceChar (l.getLast hne) = false := by
      by_cases hl0 : l = []
      · exact Or.inl hl0
      · refine Or.inr (fun hne => ?_)
        have h3 := (List.rdropWhile_eq_self_iff).mp (stripped_rdrop h1.2) hne
        revert h3
        cases isSpaceChar (l.getLast hne) <;> simp
    match ls with
    | [] =>
      have h4 := NoCrlf_line_append l [] h1.1 hlast trivial (Or.inl rfl)
      rwa [List.append_nil] at h4
    | m :: ls' =>
      rw [joinLines_cons _ (by simp : (m :: ls') ≠ [])]
      refine NoCrlf_line_append l ('\n' :: joinLines (m :: ls')) h1.1 hlast ?_ (Or.inr rfl)
      refine ⟨?_, ih (fun x hx => hp x (List.mem_cons_of_mem _ hx))⟩
      intro hc
      exact absurd hc (by decide)

theorem sigAdjP_tail : ∀ {a : List Char} {ls : List (List Char)}, sigAdjP (a :: ls) → sigAdjP ls
  | _, [], _ => trivial
  | _, _ :: _, h => h.2

/-- Scanning lines that are stripped, unquoted, not forward headers and
free of signature closures, on top of an open unquoted fragment, simply
accumulates them into that fragment. -/
theorem rescan_aux : ∀ (rest done : List (List Char)), done ≠ [] →
    (∀ l ∈ rest ++ done, pStrip l = l ∧ is_forward_header l = false ∧ matchQuoted l = false) →
    sigAdjP (rest ++ done) →
    ((rest.reverse).foldl scan_line { fragments := [], fragment := some { quoted := false, forwarded := false, signature := false, lines := done }, found_visible := false }) = { fragments := [], fragment := some { quoted := false, forwarded := false, signature := false, lines := rest ++ done }, found_visible := false } := by
  intro rest
  induction rest with
  | nil => intro done _ _ _; simp
  | cons r rest' ih =>
    intro done hdone hg hadj
    rw [List.reverse_cons, List.foldl_append,
      ih done hdone (fun l hl => hg l (List.mem_cons_of_mem _ hl)) (sigAdjP_tail hadj)]
    simp only [List.foldl_cons, List.foldl_nil]
    obtain ⟨hstrip, hfwd, hquot⟩ := hg r (List.mem_cons_self _ _)
    have hne2 : rest' ++ done ≠ [] := by
      intro hh
      rcases List.append_eq_nil.mp hh with ⟨_, h2⟩
      exact hdone h2
    obtain ⟨b, tl, hbt⟩ : ∃ b tl, rest' ++ done = b :: tl := by
      match hmm : rest' ++ done with
      | [] => exact absurd hmm hne2
      | b :: tl => exact ⟨b, tl, rfl⟩
    have hsig : ((pStrip r).isEmpty && matchSig ((rest' ++ done).headD [])) = false := by
      rw [hstrip, hbt]
      match hr : r with
      | [] =>
        have hadj2 : sigAdjP ([] :: b :: tl) := by rw [← hbt]; exact hadj
        simp [List.headD_cons, hadj2.1 rfl]
      | c :: cs => simp
    have hcont : ((decide (false = matchQuoted (pStrip r))) || (false && (is_quote_header (pStrip r) || (pStrip (pStrip r)).isEmpty))) = true := by
      rw [hstrip, hquot]
      simp
    rw [scan_line_append r (by rw [hstrip]; exact hfwd) rfl hsig hcont]
    rw [hstrip]
    simp

/-- Re-scanning a content string whose lines are stripped, unquoted, not
forward headers and free of signature closures, and whose stripped text is
nonempty, yields exactly one visible fragment carrying the same content. -/
theorem rescan_content (c : List Char)
    (hgood : ∀ l ∈ splitLines c, pStrip l = l ∧ is_forward_header l = false ∧ matchQuoted l = false)
    (hadj : sigAdjP (splitLines c))
    (hne : (pStrip c).isEmpty = false) :
    scanAll c = [{ signature := false, hidden := false, quoted := false, forwarded := false, content := c }] := by
  obtain ⟨front, last, hsplit⟩ : ∃ front last, splitLines c = front ++ [last] := by
    match h : splitLines c with
    | [] => exact absurd h (splitLines_ne_nil c)
    | l :: ls =>
      exact ⟨(l :: ls).dropLast, (l :: ls).getLast (by simp),
        (List.dropLast_append_getLast (by simp)).symm⟩
  have hlastmem : last ∈ splitLines c := by rw [hsplit]; simp
  obtain ⟨hstripl, hfwdl, hquotl⟩ := hgood last hlastmem
  have step1 : scan_line { fragments := [], fragment := none, found_visible := false } last = { fragments := [], fragment := some { quoted := false, forwarded := false, signature := false, lines := [last] }, found_visible := false } := by
    rw [scan_line_open last (by rw [hstripl]; exact hfwdl) rfl]
    rw [hstripl, hquotl]
  have hfold : ((splitLines c).reverse).foldl scan_line { fragments := [], fragment := none, found_visible := false } = { fragments := [], fragment := some { quoted := false, forwarded := false, signature := false, lines := front ++ [last] }, found_visible := false } := by
    rw [hsplit, List.reverse_append]
    simp only [List.reverse_cons, List.reverse_nil, List.nil_append, List.cons_append,
      List.foldl_cons]
    rw [step1]
    exact rescan_aux front [last] (by simp)
      (by rw [← hsplit]; exact hgood) (by rw [← hsplit]; exact hadj)
  have hjoin : joinLines (front ++ [last]) = c := by
    rw [← hsplit, joinLines_splitLines]
  rw [scanAll, scanFragments, hfold, fragments_finish]
  simp only [List.nil_append]
  rw [hjoin]
  simp only [Bool.not_false, Bool.true_and, Bool.false_or]
  rw [hne]
  simp

/-- When the parse has exactly one non-hidden fragment, that fragment is
the one marked visible: it is neither quoted nor a signature nor blank. -/
theorem filter_singleton_not_cond {nt : List Char} {f : Fragment}
    (h : (scanAll nt).filter (fun g => !g.hidden) = [f]) : fragCond f = false := by
  by_contra hcond'
  have hcond : fragCond f = true := by revert hcond'; cases fragCond f <;> simp
  have hfmem : f ∈ (scanAll nt).filter (fun g => !g.hidden) := by rw [h]; simp
  have hf2 := List.mem_filter.mp hfmem
  have hfL : f ∈ scanFragments nt := List.mem_reverse.mp hf2.1
  obtain ⟨⟨i, hi⟩, hget⟩ := List.mem_iff_get.mp hfL
  have hhid := scanFragments_HiddenOk nt i hi
  rw [hget] at hhid
  have hfhid : f.hidden = false := by simpa using hf2.2
  rw [hfhid, hcond, Bool.true_and] at hhid
  obtain ⟨g, hgmem, hgcond⟩ := by
    simpa using List.all_eq_false.mp hhid.symm
  have hgcond' : fragCond g = false := by revert hgcond; cases fragCond g <;> simp
  have hgL : g ∈ scanFragments nt := List.mem_of_mem_take hgmem
  obtain ⟨⟨j, hj⟩, hgetg⟩ := List.mem_iff_get.mp hgL
  have hhidg := scanFragments_HiddenOk nt j hj
  rw [hgetg, hgcond', Bool.false_and] at hhidg
  have hgfilter : g ∈ (scanAll nt).filter (fun x => !x.hidden) :=
    List.mem_filter.mpr ⟨List.mem_reverse.mpr hgL, by rw [hhidg]; rfl⟩
  rw [h] at hgfilter
  have hgf : g = f := List.mem_singleton.mp hgfilter
  rw [hgf, hcond] at hgcond'
  exact Bool.noConfusion hgcond'

/-! ### Substitution machinery (claim C4) -/

theorem firstSome_sound {k : List Char → Option (List Char)} :
    ∀ {xs : List (List Char)} {v : List Char}, firstSome k xs = some v →
      ∃ x ∈ xs, k x = some v := by
  intro xs
  induction xs with
  | nil => intro v h; exact Option.noConfusion h
  | cons x r ih =>
    intro v h
    simp only [firstSome] at h
    split at h
    · rename_i w hk
      exact ⟨x, by simp, by rw [hk, h]⟩
    · obtain ⟨y, hy, hky⟩ := ih h
      exact ⟨y, List.mem_cons_of_mem _ hy, hky⟩

theorem drops_suffix {p : Char → Bool} {s x : List Char} :
    (x ∈ greedyDrops p s ∨ x ∈ lazyDrops p s ∨ x ∈ plusDrops p s) → x <:+ s := by
  intro h
  rcases h with h | h | h <;>
  · simp only [greedyDrops, lazyDrops, plusDrops, List.mem_map, List.mem_reverse,
      List.mem_range] at h
    obtain ⟨n, _, rfl⟩ := h
    exact List.drop_suffix _ _

theorem matchRE_sound : ∀ (re : RE) (s : List Char) (k : List Char → Option (List Char))
    {v : List Char}, matchRE re s k = some v → ∃ r, r <:+ s ∧ k r = some v := by
  intro re
  induction re with
  | lit l =>
    intro s k v h
    simp only [matchRE] at h
    split at h
    · exact ⟨s.drop l.length, List.drop_suffix _ _, h⟩
    · exact Option.noConfusion h
  | cls p =>
    intro s k v h
    match s with
    | [] =>
      simp only [matchRE] at h
      exact Option.noConfusion h
    | c :: r =>
      simp only [matchRE] at h
      split at h
      · exact ⟨r, List.suffix_cons c r, h⟩
      · exact Option.noConfusion h
  | seq a b iha ihb =>
    intro s k v h
    simp only [matchRE] at h
    obtain ⟨r, hr, hm⟩ := iha s _ h
    obtain ⟨r2, hr2, hk⟩ := ihb r _ hm
    exact ⟨r2, hr2.trans hr, hk⟩
  | opt a iha =>
    intro s k v h
    simp only [matchRE] at h
    match hm : matchRE a s k with
    | some w =>
      rw [hm] at h
      obtain ⟨r, hr, hk⟩ := iha s _ hm
      rw [← h]
      exact ⟨r, hr, hk⟩
    | none =>
      rw [hm] at h
      exact ⟨s, List.suffix_refl s, h⟩
  | starG p =>
    intro s k v h
    simp only [matchRE] at h
    obtain ⟨x, hx, hk⟩ := firstSome_sound h
    exact ⟨x, drops_suffix (Or.inl hx), hk⟩
  | starL p =>
    intro s k v h
    simp only [matchRE] at h
    obtain ⟨x, hx, hk⟩ := firstSome_sound h
    exact ⟨x, drops_suffix (Or.inr (Or.inl hx)), hk⟩
  | plusG p =>
    intro s k v h
    simp only [matchRE] at h
    obtain ⟨x, hx, hk⟩ := firstSome_sound h
    exact ⟨x, drops_suffix (Or.inr (Or.inr hx)), hk⟩

theorem searchAux_decomp : ∀ (re : RE) (s preRev : List Char) {pre m post : List Char},
    searchAux re preRev s = some (pre, m, post) → pre ++ m ++ post = preRev.reverse ++ s := by
  intro re s
  induction s with
  | nil =>
    intro preRev pre m post h
    simp only [searchAux] at h
    split at h
    · simp only [Option.some.injEq, Prod.mk.injEq] at h
      rw [← h.1, ← h.2.1, ← h.2.2]
      simp
    · exact Option.noConfusion h
  | cons c t ih =>
    intro preRev pre m post h
    simp only [searchAux] at h
    match hm : matchRE re (c :: t) (fun r => some r) with
    | some rem =>
      rw [hm] at h
      simp only [Option.some.injEq, Prod.mk.injEq] at h
      obtain ⟨r, hr, hkr⟩ := matchRE_sound re (c :: t) _ hm
      have hrrem : r = rem := by simpa using hkr
      subst hrrem
      obtain ⟨u, hu⟩ := hr
      have hulen : u.length = (c :: t).length - r.length := by
        have := congrArg List.length hu
        simp only [List.length_append] at this
        omega
      have htake : (c :: t).take ((c :: t).length - r.length) = u := by
        rw [← hulen, ← hu, List.take_left]
      rw [← h.1, ← h.2.1, ← h.2.2, htake, List.append_assoc, hu]
    | none =>
      rw [hm] at h
      have := ih (c :: preRev) h
      rw [this]
      simp

theorem searchRE_decomp {re : RE} {s pre m post : List Char}
    (h : searchRE re s = some (pre, m, post)) : pre ++ m ++ post = s := by
  have := searchAux_decomp re s [] h
  simpa using this

theorem subAllAux_fuel (re : RE) (tmpl : List TmplPiece) :
    ∀ (n m : Nat) (s : List Char), s.length ≤ n → s.length ≤ m →
      subAllAux re tmpl n s = subAllAux re tmpl m s := by
  intro n
  induction n with
  | zero =>
    intro m s hn _
    have hs : s = [] := List.eq_nil_of_length_eq_zero (by omega)
    subst hs
    match m with
    | 0 => rfl
    | Nat.succ m' =>
      simp only [subAllAux]
      match hsr : searchRE re [] with
      | none => simp [hsr]
      | some (pre, mm, post) =>
        have hd := searchRE_decomp hsr
        have hmm : mm.isEmpty = true := by
          rcases List.append_eq_nil.mp (List.append_eq_nil.mp hd).1 with ⟨_, h1⟩
          rw [h1]; rfl
        simp [hsr, hmm]
  | succ n' ih =>
    intro m s hn hm
    match m with
    | 0 =>
      have hs : s = [] := List.eq_nil_of_length_eq_zero (by omega)
      subst hs
      simp only [subAllAux]
      match hsr : searchRE re [] with
      | none => simp [hsr]
      | some (pre, mm, post) =>
        have hd := searchRE_decomp hsr
        have hmm : mm.isEmpty = true := by
          rcases List.append_eq_nil.mp (List.append_eq_nil.mp hd).1 with ⟨_, h1⟩
          rw [h1]; rfl
        simp [hsr, hmm]
    | Nat.succ m' =>
      simp only [subAllAux]
      match hsr : searchRE re s with
      | none => simp [hsr]
      | some (pre, mm, post) =>
        match hemp : mm.isEmpty with
        | true => simp [hsr, hemp]
        | false =>
          have hd := searchRE_decomp hsr
          have hmmne : mm ≠ [] := by
            intro hh; rw [hh] at hemp; exact Bool.noConfusion hemp
          have hpost : post.length ≤ n' ∧ post.length ≤ m' := by
            have := congrArg List.length hd
            simp only [List.length_append] at this
            have hmmlen : 1 ≤ mm.length := by
              match mm with
              | [] => exact absurd rfl hmmne
              | _ :: _ => simp
            omega
          simp only [hsr, hemp, Bool.false_eq_true, if_false]
          rw [ih m' post hpost.1 hpost.2]

/-- One substitution step of re.sub: the leftmost match is replaced, and the
substitution continues on the remainder, replacing every further match. -/
theorem subAll_step {re : RE} {tmpl : List TmplPiece} {s pre m post : List Char}
    (hs : searchRE re s = some (pre, m, post)) (hm : m ≠ []) :
    subAll re tmpl s = pre ++ expandTemplate tmpl m ++ subAll re tmpl post := by
  have hd := searchRE_decomp hs
  have hlen : s.length = (pre.length + m.length + post.length) := by
    have := congrArg List.length hd
    simp only [List.length_append] at this
    omega
  have hmlen : 1 ≤ m.length := by
    match m with
    | [] => exact absurd rfl hm
    | _ :: _ => simp
  obtain ⟨n, hn⟩ : ∃ n, s.length = n + 1 := ⟨s.length - 1, by omega⟩
  have hemp : m.isEmpty = false := by
    match m with
    | [] => exact absurd rfl hm
    | _ :: _ => rfl
  rw [subAll, hn]
  simp only [subAllAux, hs, hemp, Bool.false_eq_true, if_false]
  rw [subAll, subAllAux_fuel re tmpl n post.length post (by omega) (le_refl _)]

/-- The source's has_quote_header is the search of the matched pattern. -/
theorem has_quote_header_search {text : List Char} {re : RE} {pre m post : List Char}
    (h : has_quote_header text = some (re, pre, m, post)) :
    searchRE re text = some (pre, m, post) := by
  simp only [has_quote_header] at h
  match h1 : searchRE multiQuoteHdrEn text with
  | some q =>
    rw [h1] at h
    simp only [Option.some.injEq, Prod.mk.injEq] at h
    rw [← h.1, h1]
    rw [← h.2]
  | none =>
    rw [h1] at h
    match h2 : searchRE multiQuoteHdrDe text with
    | some q =>
      rw [h2] at h
      simp only [Option.some.injEq, Prod.mk.injEq] at h
      rw [← h.1, h2, ← h.2]
    | none =>
      rw [h2] at h
      match h3 : searchRE multiQuoteHdrFr text with
      | some q =>
        rw [h3] at h
        simp only [Option.some.injEq, Prod.mk.injEq] at h
        rw [← h.1, h3, ← h.2]
      | none =>
        rw [h3] at h
        exact Option.noConfusion h

/-! ### Connecting the public API to the scan -/

theorem readText_ok {t : String} {fs : List Fragment} (h : readText t = Except.ok fs) :
    ∃ nt, collapseQuoteHdr (replaceCrlf t.data) = Except.ok nt ∧ fs = scanAll nt := by
  unfold readText readMessage at h
  match hc : collapseQuoteHdr (replaceCrlf t.data) with
  | .error e =>
    simp only [hc] at h
    exact Except.noConfusion h
  | .ok nt =>
    simp only [hc] at h
    exact ⟨nt, rfl, (Except.ok.inj h).symm⟩

/-- Every line of the reply is empty or a line of a fragment that is
neither hidden nor quoted nor forwarded. -/
theorem mem_splitLines_replyOf {fs : List Fragment} {l : List Char}
    (h : l ∈ splitLines (replyOf fs)) :
    l = [] ∨ ∃ f ∈ fs, (f.hidden || f.quoted || f.forwarded) = false ∧ l ∈ splitLines f.content := by
  match hsel : fs.filter (fun f => !(f.hidden || f.quoted || f.forwarded)) with
  | [] =>
    rw [replyOf, hsel] at h
    simp only [List.map_nil, joinLines] at h
    left
    have : splitLines ([] : List Char) = [[]] := rfl
    rw [this] at h
    simpa using h
  | f0 :: rest =>
    rw [replyOf, hsel] at h
    rw [splitLines_joinLines_flatten (by simp)] at h
    rcases List.mem_flatten.mp h with ⟨piece, hpiece, hlp⟩
    rcases List.mem_map.mp hpiece with ⟨c, hcmem, rfl⟩
    rcases List.mem_map.mp hcmem with ⟨g, hg, rfl⟩
    right
    have hg2 := List.mem_filter.mp (by rw [hsel]; exact hg)
    refine ⟨g, hg2.1, ?_, hlp⟩
    have := hg2.2
    revert this
    cases g.hidden || g.quoted || g.forwarded <;> simp

/-! ### The claims -/

/-- Claim C1, counterexample: for the input with no blank line before the
signature delimiter, the blank-line signature closure never fires, all
three lines land in one visible fragment, and parse_reply returns the whole
text, not just the first line.  The claim, which expects the signature
block to be hidden and the reply to be exactly the first line, is false. -/
theorem claim_C1_counterexample :
    parse_reply "Hello\n--\nSent from my iPhone" =
      Except.ok "Hello\n--\nSent from my iPhone" ∧
    parse_reply "Hello\n--\nSent from my iPhone" ≠ Except.ok "Hello" := by
  constructor
  · rfl
  · decide

/-- Claim C1, amended: with a blank line before the double dash, the
blank-line signature closure fires: the double-dash block with the device
line is a hidden signature fragment, the blank line joins the visible
fragment, and parse_reply returns the first line followed by a newline. -/
theorem claim_C1_amended :
    readText "Hello\n\n--\nSent from my iPhone" = Except.ok
      [{ signature := false, hidden := false, quoted := false, forwarded := false, content := "Hello\n".data },
       { signature := true, hidden := true, quoted := false, forwarded := false, content := "--\nSent from my iPhone".data }] ∧
    parse_reply "Hello\n\n--\nSent from my iPhone" = Except.ok "Hello\n" := by
  constructor
  · rfl
  · rfl

/-- Claim C2, counterexample: the scanner strips each line before storing
it, so for the input consisting of one line with a leading space, the
single fragment's content is the stripped line and the concatenation of
fragment contents does not reproduce the normalized input text. -/
theorem claim_C2_counterexample :
    collapseQuoteHdr (replaceCrlf " a".data) = Except.ok ( " a".data) ∧
    readText " a" = Except.ok
      [{ signature := false, hidden := false, quoted := false, forwarded := false, content := "a".data }] ∧
    joinLines ([({ signature := false, hidden := false, quoted := false, forwarded := false, content := "a".data } : Fragment)].map (fun f => f.content)) ≠ " a".data := by
  refine ⟨rfl, rfl, by decide⟩

/-- Claim C2, amended: concatenating the content of all fragments of the
parsed message, in document order, separated by a single newline,
reproduces the normalized (CRLF-converted, quote-header-collapsed) input
with each line whitespace-stripped and forward-header lines removed. -/
theorem claim_C2_amended (t : String) (fs : List Fragment) (nt : List Char)
    (h1 : collapseQuoteHdr (replaceCrlf t.data) = Except.ok nt)
    (h2 : readText t = Except.ok fs) :
    joinLines (fs.map (fun f => f.content)) =
      joinLines (((splitLines nt).map pStrip).filter (fun l => !is_forward_header l)) := by
  obtain ⟨nt2, hnt2, hfs⟩ := readText_ok h2
  rw [h1] at hnt2
  rcases Except.ok.inj hnt2 with rfl
  rw [hfs]
  exact scanAll_reconstruct nt

/-- Witness for the amended claim C2 at a concrete input. -/
theorem claim_C2_amended_witness :
    collapseQuoteHdr (replaceCrlf " a\nb ".data) = Except.ok ( " a\nb ".data) ∧
    readText " a\nb " = Except.ok
      [{ signature := false, hidden := false, quoted := false, forwarded := false, content := "a\nb".data }] ∧
    joinLines (([({ signature := false, hidden := false, quoted := false, forwarded := false, content := "a\nb".data } : Fragment)]).map (fun f => f.content)) =
      joinLines (((splitLines ( " a\nb ".data)).map pStrip).filter (fun l => !is_forward_header l)) :=
  ⟨by rfl, by rfl,
   claim_C2_amended " a\nb " _ _ (by rfl) (by rfl)⟩

/-- Claim C3 is contradicted by the code: the first capturing group of the
quote-header match is passed to re.sub as a replacement template, and for
input whose header contains a backslash-g escape the template parse raises
re.error, so parsing raises instead of returning a message.  The model
evaluates the failing input to that error. -/
theorem claim_C3_code_bug :
    parse_reply "On \\g wrote:" = Except.error "missing <" := by rfl

/-- Claim C4, counterexample: re.sub is called without a count, so the
second occurrence of the quote-header pattern is also replaced (with the
first match's captured text), not left untouched as the claim states. -/
theorem claim_C4_counterexample :
    collapseQuoteHdr ( "On a wrote:\nx\nOn b wrote:".data) =
      Except.ok ( "On a wrote:\nx\nOn a wrote:".data) ∧
    collapseQuoteHdr ( "On a wrote:\nx\nOn b wrote:".data) ≠
      Except.ok ( "On a wrote:\nx\nOn b wrote:".data) := by
  constructor
  · rfl
  · decide

/-- Claim C4, amended: when the normalized text contains a match of a
multi-line quote-header pattern, the entire matched span of the first
occurrence is substituted by its first capturing group's content with
embedded newlines stripped, and the substitution then continues on the
text after the match, replacing every subsequent non-overlapping
occurrence with that same first-match template, rather than leaving them
untouched. -/
theorem claim_C4_amended (text : List Char) (re : RE) (tmpl : List TmplPiece)
    (pre m post : List Char)
    (h1 : has_quote_header text = some (re, pre, m, post))
    (h2 : parseTemplate 2 (m.filter (fun c => c ≠ '\n')) = Except.ok tmpl)
    (h3 : m ≠ []) :
    collapseQuoteHdr text = Except.ok (pre ++ expandTemplate tmpl m ++ subAll re tmpl post) := by
  rw [collapseQuoteHdr]
  simp only [h1, h2]
  rw [subAll_step (has_quote_header_search h1) h3]

/-- Witness for the amended claim C4 at a concrete input with two
occurrences of the English quote-header pattern. -/
theorem claim_C4_amended_witness :
    has_quote_header ( "On a wrote:\nx\nOn b wrote:".data) =
      some (multiQuoteHdrEn, [], "On a wrote:".data, "\nx\nOn b wrote:".data) ∧
    parseTemplate 2 (( "On a wrote:".data).filter (fun c => c ≠ '\n')) =
      Except.ok (( "On a wrote:".data).map (fun c => TmplPiece.text [c])) ∧
    "On a wrote:".data ≠ [] ∧
    collapseQuoteHdr ( "On a wrote:\nx\nOn b wrote:".data) =
      Except.ok ([] ++ expandTemplate (( "On a wrote:".data).map (fun c => TmplPiece.text [c])) ( "On a wrote:".data) ++
        subAll multiQuoteHdrEn (( "On a wrote:".data).map (fun c => TmplPiece.text [c])) ( "\nx\nOn b wrote:".data)) :=
  ⟨by rfl, by rfl, by decide,
   claim_C4_amended ( "On a wrote:\nx\nOn b wrote:".data) multiQuoteHdrEn _ _ _ _
     (by rfl) (by rfl) (by decide)⟩

/-- Claim C5: in scan order (the reverse of the returned document order),
a fragment's hidden flag is true exactly when it satisfies the hide
condition (quoted, signature, or whitespace-only content) and every
fragment finalized earlier in the scan also does — equivalently, no
earlier fragment was marked visible; the first fragment that fails the
condition is marked visible and its hidden flag stays false. -/
theorem claim_C5 (t : String) (fs : List Fragment) (hread : readText t = Except.ok fs)
    (i : Nat) (hi : i < fs.reverse.length) :
    ((fs.reverse).get ⟨i, hi⟩).hidden =
      (fragCond ((fs.reverse).get ⟨i, hi⟩) && ((fs.reverse).take i).all fragCond) := by
  obtain ⟨nt, _, hfs⟩ := readText_ok hread
  have heq : fs.reverse = scanFragments nt := by
    rw [hfs, scanAll, List.reverse_reverse]
  have h2 : HiddenOk fs.reverse := by
    rw [heq]; exact scanFragments_HiddenOk nt
  exact h2 i hi

/-- Witness for claim C5 at a concrete input: the single quoted fragment
of a fully quoted email is hidden. -/
theorem claim_C5_witness :
    readText "> a" = Except.ok
      [{ signature := false, hidden := true, quoted := true, forwarded := false, content := "> a".data }] ∧
    (([({ signature := false, hidden := true, quoted := true, forwarded := false, content := "> a".data } : Fragment)].reverse).get ⟨0, by decide⟩).hidden =
      (fragCond (([({ signature := false, hidden := true, quoted := true, forwarded := false, content := "> a".data } : Fragment)].reverse).get ⟨0, by decide⟩) &&
        (([({ signature := false, hidden := true, quoted := true, forwarded := false, content := "> a".data } : Fragment)].reverse).take 0).all fragCond) :=
  ⟨by rfl, claim_C5 "> a" _ (by rfl) 0 (by decide)⟩

/-- Claim C6, counterexample: once a visible fragment has been found, the
finalization code skips the hidden assignment entirely, so a quoted
fragment finalized after the visible one keeps hidden equal to false — it
is not hidden as the claim states.  For the input with a quoted block
above the reply, the quoted fragment (scan index 1, finalized after the
visible reply at scan index 0) is quoted yet has hidden false. -/
theorem claim_C6_counterexample :
    scanFragments ( "> a\nb".data) =
      [{ signature := false, hidden := false, quoted := false, forwarded := false, content := "b".data },
       { signature := false, hidden := false, quoted := true, forwarded := false, content := "> a".data }] ∧
    fragCond { signature := false, hidden := false, quoted := false, forwarded := false, content := "b".data } = false ∧
    ({ signature := false, hidden := false, quoted := true, forwarded := false, content := "> a".data } : Fragment).quoted = true ∧
    ({ signature := false, hidden := false, quoted := true, forwarded := false, content := "> a".data } : Fragment).hidden = false := by
  refine ⟨by rfl, by decide, by decide, by decide⟩

/-- Claim C6, amended: after the first visible fragment has been marked
during the scan, every subsequently finalized fragment keeps hidden equal
to false — the found-visible flag suppresses both further visible-marking
and further hidden-marking, and such fragments are excluded from the reply
only through the quoted and forwarded filters where applicable. -/
theorem claim_C6_amended (t : String) (fs : List Fragment) (hread : readText t = Except.ok fs)
    (i : Nat) (hi : i < fs.reverse.length)
    (hvis : ((fs.reverse).take i).all fragCond = false) :
    ((fs.reverse).get ⟨i, hi⟩).hidden = false := by
  obtain ⟨nt, _, hfs⟩ := readText_ok hread
  have heq : fs.reverse = scanFragments nt := by
    rw [hfs, scanAll, List.reverse_reverse]
  have h2 : HiddenOk fs.reverse := by
    rw [heq]; exact scanFragments_HiddenOk nt
  rw [h2 i hi, hvis, Bool.and_false]

/-- Witness for the amended claim C6 at a concrete input: the quoted
fragment finalized after the visible reply is not hidden. -/
theorem claim_C6_amended_witness :
    readText "> a\nb" = Except.ok
      [{ signature := false, hidden := false, quoted := true, forwarded := false, content := "> a".data },
       { signature := false, hidden := false, quoted := false, forwarded := false, content := "b".data }] ∧
    ((([({ signature := false, hidden := false, quoted := true, forwarded := false, content := "> a".data } : Fragment), { signature := false, hidden := false, quoted := false, forwarded := false, content := "b".data }].reverse).take 1).all fragCond = false) ∧
    (([({ signature := false, hidden := false, quoted := true, forwarded := false, content := "> a".data } : Fragment), { signature := false, hidden := false, quoted := false, forwarded := false, content := "b".data }].reverse).get ⟨1, by decide⟩).hidden = false :=
  ⟨by rfl, by decide, claim_C6_amended "> a\nb" _ (by rfl) 1 (by decide) (by decide)⟩

/-- Claim C7: no line of the extracted reply starts with a quote marker.
Lines only join a fragment whose quoted flag matches their own quote
status, the reply keeps only fragments with the quoted flag false, and
such fragments contain no line starting with a greater-than sign. -/
theorem claim_C7 (t : String) (fs : List Fragment) (hread : readText t = Except.ok fs) :
    ∀ l ∈ splitLines (replyOf fs), matchQuoted l = false := by
  intro l hl
  obtain ⟨nt, _, hfs⟩ := readText_ok hread
  subst hfs
  rcases mem_splitLines_replyOf hl with rfl | ⟨f, hfmem, hsel, hlf⟩
  · rfl
  · have hinv := scanAll_FragInv nt f hfmem
    have hq : f.quoted = false := by
      revert hsel
      cases f.quoted <;> cases f.hidden <;> cases f.forwarded <;> simp
    exact hinv.2.1 hq l hlf

/-- Witness for claim C7 at a concrete input with a quoted block. -/
theorem claim_C7_witness :
    readText "x\n> q" = Except.ok
      [{ signature := false, hidden := false, quoted := false, forwarded := false, content := "x".data },
       { signature := false, hidden := true, quoted := true, forwarded := false, content := "> q".data }] ∧
    (∀ l ∈ splitLines (replyOf [({ signature := false, hidden := false, quoted := false, forwarded := false, content := "x".data } : Fragment), { signature := false, hidden := true, quoted := true, forwarded := false, content := "> q".data }]), matchQuoted l = false) :=
  ⟨by rfl, claim_C7 "x\n> q" _ (by rfl)⟩

/-- Claim C8: a line matching a forward-header pattern closes the open
fragment, marks every fragment finalized so far as forwarded, is consumed
(it joins no fragment's content and opens no fragment); and fragments
created by the scan of later lines containing no forward header are
appended unchanged with the forwarded flag false. -/
theorem claim_C8 :
    (∀ (s : ScanState) (l : List Char), is_forward_header (pStrip l) = true →
      scan_line s l =
        { fragments := (finish_fragment s).fragments.map markFwd,
          fragment := none,
          found_visible := (finish_fragment s).found_visible }) ∧
    (∀ (L : List (List Char)) (s : ScanState),
      (∀ l ∈ L, is_forward_header (pStrip l) = false) →
      (∀ o, s.fragment = some o → o.forwarded = false) →
      ∃ new : List Fragment,
        (finish_fragment (L.foldl scan_line s)).fragments = s.fragments ++ new ∧
        ∀ f ∈ new, f.forwarded = false) :=
  ⟨scan_line_forward, no_forward_new⟩

/-- Witness for claim C8: a concrete forward-header line on the empty
state, and a concrete forward-free suffix. -/
theorem claim_C8_witness :
    scan_line { fragments := [], fragment := none, found_visible := false } ( "Begin forwarded message:".data) =
      { fragments := (finish_fragment { fragments := [], fragment := none, found_visible := false }).fragments.map markFwd,
        fragment := none,
        found_visible := (finish_fragment { fragments := [], fragment := none, found_visible := false }).found_visible } ∧
    (∃ new : List Fragment,
      (finish_fragment (([ "hi".data]).foldl scan_line { fragments := [], fragment := none, found_visible := false })).fragments = [] ++ new ∧
      ∀ f ∈ new, f.forwarded = false) :=
  ⟨claim_C8.1 _ _ (by decide),
   claim_C8.2 [ "hi".data] { fragments := [], fragment := none, found_visible := false }
     (by decide) (fun o ho => Option.noConfusion ho)⟩

/-- Claim C9, counterexample: re-parsing the single visible fragment's
content can change it.  For the input whose quote header is split by a
newline inside the word wrote, normalization collapses the newline and
creates a second occurrence of the pattern inside the visible content;
re-parsing that content replaces the second occurrence with the first
match, so the re-parsed visible fragment carries different content. -/
theorem claim_C9_counterexample :
    readText "On a wro\nte:On b wrote:" = Except.ok
      [{ signature := false, hidden := false, quoted := false, forwarded := false, content := "On a wrote:On b wrote:".data }] ∧
    readMessage ( "On a wrote:On b wrote:".data) = Except.ok
      [{ signature := false, hidden := false, quoted := false, forwarded := false, content := "On a wrote:On a wrote:".data }] ∧
    ( "On a wrote:On a wrote:".data ≠ "On b wrote:On b wrote:".data) ∧
    ( "On a wrote:On a wrote:".data ≠ "On a wrote:On b wrote:".data) := by
  refine ⟨by rfl, by rfl, by decide, by decide⟩

/-- Claim C9, amended: when parsing yields exactly one fragment with
hidden false and the quote-header normalization leaves that fragment's
content unchanged (the counterexample shows this can fail), re-parsing the
content yields exactly that content again as a single visible fragment,
not marked hidden. -/
theorem claim_C9_amended (t : String) (fs : List Fragment) (f : Fragment)
    (hread : readText t = Except.ok fs)
    (honly : fs.filter (fun g => !g.hidden) = [f])
    (hcollapse : collapseQuoteHdr f.content = Except.ok f.content) :
    readMessage f.content = Except.ok
      [{ signature := false, hidden := false, quoted := false, forwarded := false, content := f.content }] := by
  obtain ⟨nt, _, hfs⟩ := readText_ok hread
  subst hfs
  have hcond : fragCond f = false := filter_singleton_not_cond honly
  have hfmem : f ∈ scanAll nt := by
    have : f ∈ (scanAll nt).filter (fun g => !g.hidden) := by rw [honly]; simp
    exact (List.mem_filter.mp this).1
  have hinv := scanAll_FragInv nt f hfmem
  have hq : f.quoted = false := by
    revert hcond
    rw [fragCond]
    cases f.quoted <;> simp
  have hgood : ∀ l ∈ splitLines f.content,
      pStrip l = l ∧ is_forward_header l = false ∧ matchQuoted l = false := by
    intro l hl
    exact ⟨(hinv.1 l hl).1, (hinv.1 l hl).2.1, hinv.2.1 hq l hl⟩
  have hempty : (pStrip f.content).isEmpty = false := by
    revert hcond
    rw [fragCond, hq]
    cases f.signature <;> cases (pStrip f.content).isEmpty <;> simp
  have hcrlf : replaceCrlf f.content = f.content := by
    have hnc : NoCrlf (joinLines (splitLines f.content)) :=
      NoCrlf_joinLines (splitLines f.content)
        (fun l hl => ⟨mem_splitLines_no_newline hl, (hgood l hl).1⟩)
    rw [joinLines_splitLines] at hnc
    exact replaceCrlf_eq_self hnc
  rw [readMessage, hcrlf]
  simp only [hcollapse]
  rw [rescan_content f.content hgood (hinv.2.2) hempty]

/-- Witness for the amended claim C9 at a concrete input. -/
theorem claim_C9_amended_witness :
    readText "hi" = Except.ok
      [{ signature := false, hidden := false, quoted := false, forwarded := false, content := "hi".data }] ∧
    ([({ signature := false, hidden := false, quoted := false, forwarded := false, content := "hi".data } : Fragment)].filter (fun g => !g.hidden) = [{ signature := false, hidden := false, quoted := false, forwarded := false, content := "hi".data }]) ∧
    collapseQuoteHdr ( "hi".data) = Except.ok ( "hi".data) ∧
    readMessage ( "hi".data) = Except.ok
      [{ signature := false, hidden := false, quoted := false, forwarded := false, content := "hi".data }] :=
  ⟨by rfl, by decide, by rfl,
   claim_C9_amended "hi"
     [{ signature := false, hidden := false, quoted := false, forwarded := false, content := "hi".data }]
     { signature := false, hidden := false, quoted := false, forwarded := false, content := "hi".data }
     (by rfl) (by decide) (by rfl)⟩

/-- Claim C10: every line of every fragment's content, and every line of
the extracted reply, carries no leading or trailing whitespace: the
scanner strips each line before storing it. -/
theorem claim_C10 (t : String) (fs : List Fragment) (hread : readText t = Except.ok fs) :
    (∀ f ∈ fs, ∀ l ∈ splitLines f.content, pStrip l = l) ∧
    (∀ l ∈ splitLines (replyOf fs), pStrip l = l) := by
  obtain ⟨nt, _, hfs⟩ := readText_ok hread
  subst hfs
  constructor
  · intro f hf l hl
    exact ((scanAll_FragInv nt f hf).1 l hl).1
  · intro l hl
    rcases mem_splitLines_replyOf hl with rfl | ⟨f, hfmem, _, hlf⟩
    · rfl
    · exact ((scanAll_FragInv nt f hfmem).1 l hlf).1

/-- Witness for claim C10 at a concrete input with indentation and
trailing spaces. -/
theorem claim_C10_witness :
    readText "  a  \n b" = Except.ok
      [{ signature := false, hidden := false, quoted := false, forwarded := false, content := "a\nb".data }] ∧
    ((∀ f ∈ [({ signature := false, hidden := false, quoted := false, forwarded := false, content := "a\nb".data } : Fragment)], ∀ l ∈ splitLines f.content, pStrip l = l) ∧
     (∀ l ∈ splitLines (replyOf [({ signature := false, hidden := false, quoted := false, forwarded := false, content := "a\nb".data } : Fragment)]), pStrip l = l)) :=
  ⟨by rfl, claim_C10 "  a  \n b" _ (by rfl)⟩

end ERP
